import Mathlib

/-!
# Verification of the stage-gate synchronizers of `cpp_concurency`

The repository's concurrency examples (`src/Primitives/Sync/*`,
`src/Primitives/Sync_Examples/*`) coordinate stages of parallel work with
countdown latches and barriers.  The gate primitives themselves are the C++
standard-library `std::latch` and `std::barrier`; their implementation is not
part of the repository, so the gate semantics below are modelled from the
specification (§3, §4, §5 of the spec), while the example *programs* that
drive them (`test_latch.cpp`, `test_latch_full.cpp`, `test_multi_latch.cpp`,
`test_barrier.cpp`) are embedded from the source.

Concurrency is rendered as a sequentially-consistent interleaving semantics:
a configuration holds the shared gate counters, a flag memory, and one
remaining instruction list per thread; a schedule (list of thread indices)
drives an executable step function.  Temporal claims become statements over
all schedules.
-/

/-! ## Pure countdown-gate state

Modelled from the spec: the repository's `CountdownGate` is `std::latch`,
whose implementation is not under `src/`; §3 and §4.1 of the spec give its
state `{remaining, capacity}` and the operations `arrive` (decrement,
clamped at zero, the spec's recommended deterministic choice for contract
violations), `wait` (blocks until `remaining = 0`, no mutation) and
`is_ready` (non-blocking query). -/

structure CountdownGate where
  remaining : Int
  capacity : Int
deriving DecidableEq

/-- Construction with a given capacity (spec §3: `remaining` starts at
`capacity`). -/
def CountdownGate.make (C : Int) : CountdownGate := ⟨C, C⟩

/-- Modelled from the spec: `arrive()` atomically decrements `remaining` if
it is positive; a decrement past zero clamps (spec §7's recommended
deterministic contract-violation behaviour). -/
def CountdownGate.arrive (g : CountdownGate) : CountdownGate :=
  if 0 < g.remaining then { g with remaining := g.remaining - 1 } else g

/-- Modelled from the spec: `is_ready()` returns true iff `remaining = 0`
and does not mutate the gate (it is a plain function of the state). -/
def CountdownGate.is_ready (g : CountdownGate) : Bool :=
  g.remaining = 0

/-- Modelled from the spec: the condition under which `wait()` returns; the
call never mutates the gate, so it is represented by its return condition. -/
def CountdownGate.wait_returns (g : CountdownGate) : Bool :=
  g.remaining = 0

/-- Modelled from the spec: `arrive_and_wait()` as one single logical step:
the decrement and the check of the resulting counter happen together,
written out directly (not via `arrive`/`wait_returns`) so that its
equivalence with the composition is a theorem, not a definition. -/
def CountdownGate.arrive_and_wait (g : CountdownGate) : CountdownGate × Bool :=
  let r := if 0 < g.remaining then g.remaining - 1 else g.remaining
  (⟨r, g.capacity⟩, decide (r = 0))

/-- The operations a participant thread may issue on a countdown gate. -/
inductive GateOp where
  | arriveOp
  | waitOp
  | isReadyOp
deriving DecidableEq

/-- Effect of one operation on the gate state: only `arrive` mutates. -/
def CountdownGate.applyOp (g : CountdownGate) : GateOp → CountdownGate
  | GateOp.arriveOp => g.arrive
  | GateOp.waitOp => g
  | GateOp.isReadyOp => g

/-- Effect of a sequence of operations. -/
def CountdownGate.applyOps (g : CountdownGate) (ops : List GateOp) : CountdownGate :=
  ops.foldl CountdownGate.applyOp g

/-- `k` successive `arrive()` calls. -/
def CountdownGate.arriveN (g : CountdownGate) (k : Nat) : CountdownGate :=
  g.applyOps (List.replicate k GateOp.arriveOp)

theorem CountdownGate.applyOps_append (g : CountdownGate) (l₁ l₂ : List GateOp) :
    g.applyOps (l₁ ++ l₂) = (g.applyOps l₁).applyOps l₂ :=
  List.foldl_append _ _ _ _

theorem CountdownGate.capacity_applyOp (g : CountdownGate) (op : GateOp) :
    (g.applyOp op).capacity = g.capacity := by
  cases op
  · rw [CountdownGate.applyOp, CountdownGate.arrive]
    split
    · rfl
    · rfl
  · rfl
  · rfl

theorem CountdownGate.capacity_applyOps (g : CountdownGate) (ops : List GateOp) :
    (g.applyOps ops).capacity = g.capacity := by
  induction ops generalizing g with
  | nil => rfl
  | cons op rest ih =>
      rw [CountdownGate.applyOps] at *
      rw [List.foldl_cons]
      rw [show List.foldl CountdownGate.applyOp (g.applyOp op) rest =
            (g.applyOp op).applyOps rest from rfl, ih, capacity_applyOp]

/-- The counter never increases under any operation. -/
theorem CountdownGate.remaining_applyOp_le (g : CountdownGate) (op : GateOp) :
    (g.applyOp op).remaining ≤ g.remaining := by
  cases op
  · rw [CountdownGate.applyOp, CountdownGate.arrive]
    split
    · simp
    · exact le_refl _
  · exact le_refl _
  · exact le_refl _

/-- The counter stays nonnegative under any operation. -/
theorem CountdownGate.remaining_applyOp_nonneg (g : CountdownGate) (op : GateOp)
    (h : 0 ≤ g.remaining) : 0 ≤ (g.applyOp op).remaining := by
  cases op
  · rw [CountdownGate.applyOp, CountdownGate.arrive]
    split
    · next h2 => simp; omega
    · exact h
  · exact h
  · exact h

/-- Once the counter is zero it never changes again. -/
theorem CountdownGate.remaining_applyOp_zero (g : CountdownGate) (op : GateOp)
    (h : g.remaining = 0) : (g.applyOp op).remaining = 0 := by
  cases op <;> simp [CountdownGate.applyOp, CountdownGate.arrive, h]

theorem CountdownGate.remaining_applyOps_zero (g : CountdownGate) (ops : List GateOp)
    (h : g.remaining = 0) : (g.applyOps ops).remaining = 0 := by
  induction ops generalizing g with
  | nil => exact h
  | cons op rest ih =>
      rw [CountdownGate.applyOps, List.foldl_cons]
      exact ih _ (CountdownGate.remaining_applyOp_zero g op h)

theorem CountdownGate.remaining_applyOps_le (g : CountdownGate) (ops : List GateOp) :
    (g.applyOps ops).remaining ≤ g.remaining := by
  induction ops generalizing g with
  | nil => exact le_refl _
  | cons op rest ih =>
      rw [CountdownGate.applyOps, List.foldl_cons]
      exact le_trans (ih (g.applyOp op)) (CountdownGate.remaining_applyOp_le g op)

theorem CountdownGate.remaining_applyOps_nonneg (g : CountdownGate) (ops : List GateOp)
    (h : 0 ≤ g.remaining) : 0 ≤ (g.applyOps ops).remaining := by
  induction ops generalizing g with
  | nil => exact h
  | cons op rest ih =>
      rw [CountdownGate.applyOps, List.foldl_cons]
      exact ih _ (CountdownGate.remaining_applyOp_nonneg g op h)

/-- Closed form for `k` arrivals on a fresh gate of capacity `C ≥ 0`:
the counter is `C - k` clamped at zero. -/
theorem CountdownGate.remaining_arriveN (C : Int) (hC : 0 ≤ C) (k : Nat) :
    ((CountdownGate.make C).arriveN k).remaining = max (C - k) 0 := by
  induction k with
  | zero => simp [CountdownGate.arriveN, CountdownGate.applyOps, CountdownGate.make]; omega
  | succ n ih =>
      rw [CountdownGate.arriveN, List.replicate_succ', CountdownGate.applyOps_append]
      rw [CountdownGate.arriveN] at ih
      rw [CountdownGate.applyOps, List.foldl_cons, List.foldl_nil]
      rw [CountdownGate.applyOp, CountdownGate.arrive]
      split
      · next h =>
          rw [ih] at h ⊢
          push_cast
          omega
      · next h =>
          rw [ih] at h ⊢
          push_cast
          omega

/-! ## Interleaving semantics for the example programs

The demo programs in `src/Primitives/Sync*` spawn threads that run a fixed
straight-line sequence of gate operations.  A configuration holds the shared
latch counters (one `Nat` per latch; the decrement clamps at zero, the
spec's deterministic rendering of a past-capacity `count_down`), a boolean
flag memory standing for the memory actions the threads perform before
arriving, and each thread's remaining program.  A schedule is a list of
thread indices; `runSched` executes it, failing when the scheduled thread
is finished or blocked in `wait`. -/

/-- One instruction of a participant thread: `count_down g` and `wait g`
are `std::latch::count_down`/`wait` on latch number `g` (modelled from the
spec, §4.1); `store a` sets shared flag `a`, standing for the memory
actions a thread performs before arriving. -/
inductive Instr where
  | count_down (g : Nat)
  | wait (g : Nat)
  | store (a : Nat)
deriving DecidableEq

/-- A configuration of the interleaved system. -/
structure Conf where
  gates : List Nat
  mem : List Bool
  threads : List (List Instr)
deriving DecidableEq

/-- One step of thread `t`: execute the head instruction of its remaining
program, if any; `wait g` only proceeds when latch `g` is zero (spec §4.1:
`wait()` blocks until `remaining == 0`). -/
def stepF (c : Conf) (t : Nat) : Option Conf :=
  match c.threads.get? t with
  | none => none
  | some [] => none
  | some (Instr.count_down g :: rest) =>
      some { c with gates := c.gates.set g (c.gates.getD g 0 - 1),
                    threads := c.threads.set t rest }
  | some (Instr.wait g :: rest) =>
      if c.gates.getD g 0 = 0 then some { c with threads := c.threads.set t rest }
      else none
  | some (Instr.store a :: rest) =>
      some { c with mem := c.mem.set a true,
                    threads := c.threads.set t rest }

/-- Execute a schedule (list of thread indices). -/
def runSched (c : Conf) : List Nat → Option Conf
  | [] => some c
  | t :: s =>
      match stepF c t with
      | none => none
      | some d => runSched d s

/-- A configuration is stuck when no thread can take a step. -/
def Stuck (c : Conf) : Prop := ∀ t, stepF c t = none

/-- Inversion principle for `stepF`. -/
theorem stepF_eq_some {c : Conf} {t : Nat} {d : Conf}
    (h : stepF c t = some d) :
    ∃ rest,
      (∃ g, c.threads.get? t = some (Instr.count_down g :: rest) ∧
        d = { c with gates := c.gates.set g (c.gates.getD g 0 - 1),
                     threads := c.threads.set t rest }) ∨
      (∃ g, c.threads.get? t = some (Instr.wait g :: rest) ∧
        c.gates.getD g 0 = 0 ∧
        d = { c with threads := c.threads.set t rest }) ∨
      (∃ a, c.threads.get? t = some (Instr.store a :: rest) ∧
        d = { c with mem := c.mem.set a true,
                     threads := c.threads.set t rest }) := by
  rw [stepF] at h
  rcases hg : c.threads.get? t with _ | l
  · rw [hg] at h
    exact absurd h (by simp)
  · rcases l with _ | ⟨i, rest⟩
    · rw [hg] at h
      exact absurd h (by simp)
    · cases i with
      | count_down g =>
          rw [hg] at h
          simp only [Option.some.injEq] at h
          exact ⟨rest, Or.inl ⟨g, rfl, h.symm⟩⟩
      | wait g =>
          rw [hg] at h
          dsimp only at h
          by_cases hz : c.gates.getD g 0 = 0
          · rw [if_pos hz] at h
            simp only [Option.some.injEq] at h
            exact ⟨rest, Or.inr (Or.inl ⟨g, rfl, hz, h.symm⟩)⟩
          · rw [if_neg hz] at h
            exact absurd h (by simp)
      | store a =>
          rw [hg] at h
          simp only [Option.some.injEq] at h
          exact ⟨rest, Or.inr (Or.inr ⟨a, rfl, h.symm⟩)⟩

/-- Invariant lifting: a property preserved by every single step is
preserved by every schedule. -/
theorem runSched_preserve (P : Conf → Prop)
    (hstep : ∀ c t d, P c → stepF c t = some d → P d) :
    ∀ (sched : List Nat) (c d : Conf), runSched c sched = some d → P c → P d := by
  intro sched
  induction sched with
  | nil =>
      intro c d h hc
      rw [runSched] at h
      cases h
      exact hc
  | cons t s ih =>
      intro c d h hc
      rw [runSched] at h
      rcases he : stepF c t with _ | e
      · rw [he] at h
        exact absurd h (by simp)
      · rw [he] at h
        exact ih e d h (hstep c t e hc he)

/-- Decomposing a schedule. -/
theorem runSched_append (c : Conf) (p s : List Nat) :
    runSched c (p ++ s) =
      match runSched c p with
      | none => none
      | some d => runSched d s := by
  induction p generalizing c with
  | nil => rw [List.nil_append, runSched]
  | cons t q ih =>
      rw [List.cons_append, runSched, runSched]
      rcases he : stepF c t with _ | e
      · rfl
      · exact ih e

/-! ## Counting instructions across a configuration -/

/-- Number of `count_down g` instructions remaining in a program. -/
def cdIn (g : Nat) (l : List Instr) : Nat :=
  l.countP (fun i => i = Instr.count_down g)

/-- Number of `count_down g` instructions remaining across all threads. -/
def remCd (g : Nat) (c : Conf) : Nat := (c.threads.map (cdIn g)).sum

/-- Number of `store a` instructions remaining in a program. -/
def stIn (a : Nat) (l : List Instr) : Nat :=
  l.countP (fun i => i = Instr.store a)

/-- Number of `store a` instructions remaining across all threads. -/
def remSt (a : Nat) (c : Conf) : Nat := (c.threads.map (stIn a)).sum

theorem sum_map_set {α : Type} (f : α → Nat) :
    ∀ (l : List α) (t : Nat) (x a : α),
      l.get? t = some a →
      ((l.set t x).map f).sum + f a = (l.map f).sum + f x := by
  intro l
  induction l with
  | nil => intro t x a h; simp at h
  | cons b l ih =>
      intro t x a h
      cases t with
      | zero =>
          simp only [List.get?] at h
          cases h
          rw [show (b :: l).set 0 x = x :: l from rfl, List.map_cons,
              List.map_cons, List.sum_cons, List.sum_cons]
          omega
      | succ n =>
          simp only [List.get?] at h
          have h2 := ih n x a h
          rw [show (b :: l).set (n + 1) x = b :: l.set n x from rfl,
              List.map_cons, List.map_cons, List.sum_cons, List.sum_cons]
          omega

theorem cdIn_cons (g : Nat) (i : Instr) (l : List Instr) :
    cdIn g (i :: l) = (if i = Instr.count_down g then 1 else 0) + cdIn g l := by
  by_cases h : i = Instr.count_down g
  · rw [if_pos h, cdIn, cdIn, List.countP_cons, if_pos (by simp [h])]
    omega
  · rw [if_neg h, cdIn, cdIn, List.countP_cons, if_neg (by simp [h])]
    omega

theorem stIn_cons (a : Nat) (i : Instr) (l : List Instr) :
    stIn a (i :: l) = (if i = Instr.store a then 1 else 0) + stIn a l := by
  by_cases h : i = Instr.store a
  · rw [if_pos h, stIn, stIn, List.countP_cons, if_pos (by simp [h])]
    omega
  · rw [if_neg h, stIn, stIn, List.countP_cons, if_neg (by simp [h])]
    omega

theorem getD_set_self (l : List Nat) (g v : Nat) :
    (l.set g v).getD g 0 = if g < l.length then v else l.getD g 0 := by
  by_cases hl : g < l.length
  · rw [if_pos hl, List.getD_eq_get?, List.get?_set_eq_of_lt _ hl]
    rfl
  · rw [if_neg hl, List.getD_eq_get?, List.getD_eq_get?]
    rw [List.get?_eq_none.2 (by simpa using Nat.le_of_not_lt hl),
        List.get?_eq_none.2 (by omega)]

theorem getD_set_ne (l : List Nat) {g g2 : Nat} (v : Nat) (h : g ≠ g2) :
    (l.set g v).getD g2 0 = l.getD g2 0 := by
  rw [List.getD_eq_get?, List.getD_eq_get?, List.get?_set_ne _ _ h]

/-- Effect of one step on one latch counter: the number of pending
`count_down g` instructions drops by at most one, and the counter decreases
by exactly that amount (clamped at zero). -/
theorem stepF_gate {c : Conf} {t : Nat} {d : Conf}
    (h : stepF c t = some d) (g : Nat) :
    remCd g d ≤ remCd g c ∧ remCd g c ≤ remCd g d + 1 ∧
      d.gates.getD g 0 = c.gates.getD g 0 - (remCd g c - remCd g d) := by
  rcases stepF_eq_some h with ⟨rest, hcd | hw | hst⟩
  · rcases hcd with ⟨g2, hth, hd⟩
    have hsum := sum_map_set (cdIn g) c.threads t rest _ hth
    rw [cdIn_cons] at hsum
    by_cases hgg : g2 = g
    · rw [if_pos (by rw [hgg])] at hsum
      have h1 : remCd g d + 1 = remCd g c := by
        rw [remCd, remCd, hd]
        dsimp only
        omega
      have h2 : d.gates.getD g 0 = c.gates.getD g 0 - 1 := by
        rw [hd]
        dsimp only
        rw [hgg, getD_set_self]
        split
        · rfl
        · next hlen =>
            have hz : c.gates.getD g 0 = 0 := by
              rw [List.getD_eq_get?, List.get?_eq_none.2 (by omega)]
              rfl
            rw [hz]
      exact ⟨by omega, by omega, by rw [h2]; omega⟩
    · rw [if_neg (by simp [hgg])] at hsum
      have h1 : remCd g d = remCd g c := by
        rw [remCd, remCd, hd]
        dsimp only
        omega
      have h2 : d.gates.getD g 0 = c.gates.getD g 0 := by
        rw [hd]
        dsimp only
        exact getD_set_ne _ _ hgg
      rw [h1, h2]
      omega
  · rcases hw with ⟨g2, hth, hz, hd⟩
    have hsum := sum_map_set (cdIn g) c.threads t rest _ hth
    rw [cdIn_cons, if_neg (by simp)] at hsum
    have h1 : remCd g d = remCd g c := by
      rw [remCd, remCd, hd]
      dsimp only
      omega
    have h2 : d.gates.getD g 0 = c.gates.getD g 0 := by rw [hd]
    rw [h1, h2]
    omega
  · rcases hst with ⟨a, hth, hd⟩
    have hsum := sum_map_set (cdIn g) c.threads t rest _ hth
    rw [cdIn_cons, if_neg (by simp)] at hsum
    have h1 : remCd g d = remCd g c := by
      rw [remCd, remCd, hd]
      dsimp only
      omega
    have h2 : d.gates.getD g 0 = c.gates.getD g 0 := by rw [hd]
    rw [h1, h2]
    omega

/-- Whole-schedule version of `stepF_gate`. -/
theorem runSched_gate {c : Conf} {sched : List Nat} {d : Conf}
    (h : runSched c sched = some d) (g : Nat) :
    remCd g d ≤ remCd g c ∧
      d.gates.getD g 0 = c.gates.getD g 0 - (remCd g c - remCd g d) := by
  induction sched generalizing c with
  | nil =>
      rw [runSched] at h
      cases h
      exact ⟨le_refl _, by omega⟩
  | cons t s ih =>
      rw [runSched] at h
      rcases he : stepF c t with _ | e
      · rw [he] at h; exact absurd h (by simp)
      · rw [he] at h
        have h1 := stepF_gate he g
        have h2 := ih h
        refine ⟨le_trans h2.1 h1.1, ?_⟩
        rw [h2.2, h1.2.2]
        omega

/-- Thread programs shrink: one step leaves every thread's remaining
program a suffix of what it was. -/
theorem stepF_suffix {c : Conf} {t : Nat} {d : Conf}
    (h : stepF c t = some d) (u : Nat) (l' : List Instr)
    (hu : d.threads.get? u = some l') :
    ∃ l, c.threads.get? u = some l ∧ l' <:+ l := by
  rcases stepF_eq_some h with ⟨rest, hcd | hw | hst⟩
  · rcases hcd with ⟨g, hth, hd⟩
    rw [hd] at hu
    dsimp only at hu
    by_cases htu : t = u
    · subst htu
      have hlt : t < c.threads.length := (List.get?_eq_some.1 hth).1
      rw [List.get?_set_eq_of_lt _ hlt] at hu
      cases hu
      exact ⟨_, hth, List.suffix_cons _ _⟩
    · rw [List.get?_set_ne _ _ htu] at hu
      exact ⟨l', hu, List.suffix_refl _⟩
  · rcases hw with ⟨g, hth, hz, hd⟩
    rw [hd] at hu
    dsimp only at hu
    by_cases htu : t = u
    · subst htu
      have hlt : t < c.threads.length := (List.get?_eq_some.1 hth).1
      rw [List.get?_set_eq_of_lt _ hlt] at hu
      cases hu
      exact ⟨_, hth, List.suffix_cons _ _⟩
    · rw [List.get?_set_ne _ _ htu] at hu
      exact ⟨l', hu, List.suffix_refl _⟩
  · rcases hst with ⟨a, hth, hd⟩
    rw [hd] at hu
    dsimp only at hu
    by_cases htu : t = u
    · subst htu
      have hlt : t < c.threads.length := (List.get?_eq_some.1 hth).1
      rw [List.get?_set_eq_of_lt _ hlt] at hu
      cases hu
      exact ⟨_, hth, List.suffix_cons _ _⟩
    · rw [List.get?_set_ne _ _ htu] at hu
      exact ⟨l', hu, List.suffix_refl _⟩

/-- Whole-schedule version of `stepF_suffix`. -/
theorem runSched_suffix {c : Conf} {sched : List Nat} {d : Conf}
    (h : runSched c sched = some d) (u : Nat) (l' : List Instr)
    (hu : d.threads.get? u = some l') :
    ∃ l, c.threads.get? u = some l ∧ l' <:+ l := by
  induction sched generalizing c with
  | nil =>
      rw [runSched] at h
      cases h
      exact ⟨l', hu, List.suffix_refl _⟩
  | cons t s ih =>
      rw [runSched] at h
      rcases he : stepF c t with _ | e
      · rw [he] at h; exact absurd h (by simp)
      · rw [he] at h
        rcases ih h with ⟨m, hm, hsuf⟩
        rcases stepF_suffix he u m hm with ⟨l, hl, hsuf2⟩
        exact ⟨l, hl, hsuf.trans hsuf2⟩

/-- One step preserves the list lengths of the configuration and never
erases a set flag; executing a `store` sets the flag (addresses in range). -/
theorem stepF_mem {c : Conf} {t : Nat} {d : Conf}
    (h : stepF c t = some d) (a : Nat) :
    d.mem.length = c.mem.length ∧ d.threads.length = c.threads.length ∧
      remSt a d ≤ remSt a c ∧ remSt a c ≤ remSt a d + 1 ∧
      (c.mem.getD a false = true → d.mem.getD a false = true) ∧
      (a < c.mem.length → remSt a d < remSt a c → d.mem.getD a false = true) := by
  rcases stepF_eq_some h with ⟨rest, hcd | hw | hst⟩
  · rcases hcd with ⟨g, hth, hd⟩
    have hsum := sum_map_set (stIn a) c.threads t rest _ hth
    rw [stIn_cons, if_neg (by simp)] at hsum
    have h1 : remSt a d = remSt a c := by
      rw [remSt, remSt, hd]
      dsimp only
      omega
    have hmm : d.mem = c.mem := by rw [hd]
    have hlen : d.threads.length = c.threads.length := by
      rw [hd]
      dsimp only
      exact List.length_set c.threads t rest
    refine ⟨by rw [hmm], hlen, by omega, by omega, by rw [hmm]; exact id, ?_⟩
    intro _ hlt
    omega
  · rcases hw with ⟨g, hth, hz, hd⟩
    have hsum := sum_map_set (stIn a) c.threads t rest _ hth
    rw [stIn_cons, if_neg (by simp)] at hsum
    have h1 : remSt a d = remSt a c := by
      rw [remSt, remSt, hd]
      dsimp only
      omega
    have hmm : d.mem = c.mem := by rw [hd]
    have hlen : d.threads.length = c.threads.length := by
      rw [hd]
      dsimp only
      exact List.length_set c.threads t rest
    refine ⟨by rw [hmm], hlen, by omega, by omega, by rw [hmm]; exact id, ?_⟩
    intro _ hlt
    omega
  · rcases hst with ⟨a2, hth, hd⟩
    have hsum := sum_map_set (stIn a) c.threads t rest _ hth
    rw [stIn_cons] at hsum
    have hmlen : d.mem.length = c.mem.length := by
      rw [hd]
      dsimp only
      exact List.length_set c.mem a2 true
    have hlen : d.threads.length = c.threads.length := by
      rw [hd]
      dsimp only
      exact List.length_set c.threads t rest
    by_cases haa : a2 = a
    · rw [if_pos (by rw [haa])] at hsum
      have h1 : remSt a d + 1 = remSt a c := by
        rw [remSt, remSt, hd]
        dsimp only
        omega
      have h2 : a < c.mem.length → d.mem.getD a false = true := by
        intro hl
        rw [hd]
        dsimp only
        rw [haa, List.getD_eq_get?, List.get?_set_eq_of_lt _ hl]
        rfl
      have h3 : c.mem.getD a false = true → d.mem.getD a false = true := by
        intro hm
        by_cases hl : a < c.mem.length
        · exact h2 hl
        · rw [hd]
          dsimp only
          rw [List.getD_eq_get?, List.get?_eq_none.2 (by rw [List.length_set]; omega)]
          rw [List.getD_eq_get?, List.get?_eq_none.2 (by omega)] at hm
          exact hm
      exact ⟨hmlen, hlen, by omega, by omega, h3, fun hl _ => h2 hl⟩
    · rw [if_neg (by simp [haa])] at hsum
      have h1 : remSt a d = remSt a c := by
        rw [remSt, remSt, hd]
        dsimp only
        omega
      have h2 : d.mem.getD a false = c.mem.getD a false := by
        rw [hd]
        dsimp only
        rw [List.getD_eq_get?, List.getD_eq_get?, List.get?_set_ne _ _ haa]
      refine ⟨hmlen, hlen, by omega, by omega, ?_, ?_⟩
      · intro hm
        rw [h2]
        exact hm
      · intro _ hlt
        omega

/-- Whole-schedule version of `stepF_mem`: lengths are preserved, flags are
never erased, and a consumed `store` leaves its flag set. -/
theorem runSched_mem {c : Conf} {sched : List Nat} {d : Conf}
    (h : runSched c sched = some d) (a : Nat) :
    d.mem.length = c.mem.length ∧ d.threads.length = c.threads.length ∧
      remSt a d ≤ remSt a c ∧
      (c.mem.getD a false = true → d.mem.getD a false = true) ∧
      (a < c.mem.length → remSt a d < remSt a c → d.mem.getD a false = true) := by
  induction sched generalizing c with
  | nil =>
      rw [runSched] at h
      cases h
      exact ⟨rfl, rfl, le_refl _, fun hm => hm, fun _ hlt => absurd hlt (by omega)⟩
  | cons t s ih =>
      rw [runSched] at h
      rcases he : stepF c t with _ | e
      · rw [he] at h; exact absurd h (by simp)
      · rw [he] at h
        have h1 := stepF_mem he a
        have h2 := ih h
        refine ⟨h2.1.trans h1.1, h2.2.1.trans h1.2.1, le_trans h2.2.2.1 h1.2.2.1,
          fun hm => h2.2.2.2.1 (h1.2.2.2.2.1 hm), ?_⟩
        intro ha hlt
        by_cases hfirst : remSt a e < remSt a c
        · exact h2.2.2.2.1 (h1.2.2.2.2.2 ha hfirst)
        · have : remSt a d < remSt a e := by omega
          exact h2.2.2.2.2 (by omega) this

/-- A thread whose next instruction is a `count_down` can always step. -/
theorem stepF_cd_ne {c : Conf} {t g : Nat} {rest : List Instr}
    (h : c.threads.get? t = some (Instr.count_down g :: rest)) :
    stepF c t ≠ none := by
  unfold stepF
  rw [h]
  simp

/-- A thread blocked in `wait` on an open latch can always step (spec §4.1:
`wait()` returns immediately once `remaining = 0`). -/
theorem stepF_wait_ne {c : Conf} {t g : Nat} {rest : List Instr}
    (h : c.threads.get? t = some (Instr.wait g :: rest))
    (hz : c.gates.getD g 0 = 0) :
    stepF c t ≠ none := by
  unfold stepF
  rw [h]
  dsimp only
  rw [if_pos hz]
  simp

/-- A thread whose next instruction is a `store` can always step. -/
theorem stepF_store_ne {c : Conf} {t a : Nat} {rest : List Instr}
    (h : c.threads.get? t = some (Instr.store a :: rest)) :
    stepF c t ≠ none := by
  unfold stepF
  rw [h]
  simp

theorem suffix_of_single {x : Instr} {l : List Instr} (h : l <:+ [x]) :
    l = [] ∨ l = [x] := by
  rcases h with ⟨p, hp⟩
  cases p with
  | nil => right; simpa using hp
  | cons b q =>
      left
      have h2 := (List.cons_eq_cons.1 hp).2
      exact (List.append_eq_nil.1 h2).2

theorem suffix_of_pair {x y : Instr} {l : List Instr} (h : l <:+ [x, y]) :
    l = [] ∨ l = [y] ∨ l = [x, y] := by
  rcases h with ⟨p, hp⟩
  cases p with
  | nil => right; right; simpa using hp
  | cons b q =>
      cases q with
      | nil =>
          right; left
          exact (List.cons_eq_cons.1 hp).2
      | cons b2 q2 =>
          left
          have h2 := (List.cons_eq_cons.1 hp).2
          have h3 := (List.cons_eq_cons.1 h2).2
          exact (List.append_eq_nil.1 h3).2

theorem suffix_of_triple {x y z : Instr} {l : List Instr} (h : l <:+ [x, y, z]) :
    l = [] ∨ l = [z] ∨ l = [y, z] ∨ l = [x, y, z] := by
  rcases h with ⟨p, hp⟩
  cases p with
  | nil => right; right; right; simpa using hp
  | cons b q =>
      rcases List.cons_eq_cons.1 hp with ⟨hb, h2⟩
      have h3 : l <:+ [y, z] := ⟨q, h2⟩
      rcases suffix_of_pair h3 with h4 | h4 | h4
      · exact Or.inl h4
      · exact Or.inr (Or.inl h4)
      · exact Or.inr (Or.inr (Or.inl h4))

/-- Threads with all `count_down g` consumed: the per-thread count is zero. -/
theorem cdIn_eq_zero_of_remCd {g : Nat} {c : Conf} (h : remCd g c = 0)
    {t : Nat} {l : List Instr} (ht : c.threads.get? t = some l) :
    cdIn g l = 0 := by
  have hm : l ∈ c.threads := List.get?_mem ht
  have hmm : cdIn g l ∈ c.threads.map (cdIn g) := List.mem_map_of_mem _ hm
  rw [remCd] at h
  exact (List.sum_eq_zero_iff.1 h) _ hmm

theorem stIn_eq_zero_of_remSt {a : Nat} {c : Conf} (h : remSt a c = 0)
    {t : Nat} {l : List Instr} (ht : c.threads.get? t = some l) :
    stIn a l = 0 := by
  have hm : l ∈ c.threads := List.get?_mem ht
  have hmm : stIn a l ∈ c.threads.map (stIn a) := List.mem_map_of_mem _ hm
  rw [remSt] at h
  exact (List.sum_eq_zero_iff.1 h) _ hmm

/-! ## The example programs, embedded from the source

Each demo's threads run a fixed sequence of gate calls; the configurations
below transcribe them (latch counters from the constructor arguments, one
program per spawned thread). -/

/-- `test_latch.cpp` lines 28-34: `task` does `latch.count_down()` then
`latch.wait()`. -/
def taskProg : List Instr := [Instr.count_down 0, Instr.wait 0]

/-- `test_latch.cpp`: `std::latch latch(3)` and three `task` threads. -/
def latchInit : Conf :=
  { gates := [3], mem := [], threads := [taskProg, taskProg, taskProg] }

/-- `test_latch_full.cpp`: `std::latch latch(3)`, three `task` threads
(`count_down` then `wait`) and one `final_task` thread whose
`arrive_and_wait()` is the decrement followed by the blocking wait (its
equivalence to that composition is proved separately). -/
def latchFullInit : Conf :=
  { gates := [3], mem := [], threads := [taskProg, taskProg, taskProg, taskProg] }

/-- `test_latch.cpp` `task` with its pre-arrival memory action made
explicit: the work each task performs before `count_down` is modelled as
setting flag `i`. -/
def visProg (i : Nat) : List Instr :=
  [Instr.store i, Instr.count_down 0, Instr.wait 0]

/-- The visibility configuration: three tasks on a capacity-3 latch, each
writing its flag before arriving. -/
def visInit : Conf :=
  { gates := [3], mem := [false, false, false],
    threads := [visProg 0, visProg 1, visProg 2] }

/-- `test_multi_latch.cpp` lines 59-65: `stage1_task` decrements
`stage1_latch`. -/
def stage1Prog : List Instr := [Instr.count_down 0]

/-- `test_multi_latch.cpp` lines 67-75: `stage2_task` waits on
`stage1_latch`, then decrements `stage2_latch`. -/
def stage2Prog : List Instr := [Instr.wait 0, Instr.count_down 1]

/-- `test_multi_latch.cpp` lines 77-85: `stage3_task` waits on
`stage2_latch`, then decrements `stage3_latch`. -/
def stage3Prog : List Instr := [Instr.wait 1, Instr.count_down 2]

/-- `test_multi_latch.cpp`: three latches of count 3 and three threads per
stage (`main`, lines 87-110). -/
def multiInit : Conf :=
  { gates := [3, 3, 3], mem := [],
    threads := [stage1Prog, stage1Prog, stage1Prog,
                stage2Prog, stage2Prog, stage2Prog,
                stage3Prog, stage3Prog, stage3Prog] }

/-- Preservation of the stage-ordering guard: in the band `[lo, hi)` of
threads whose initial program `prog` starts with `wait gw`, any thread that
has moved past that program implies latch `gw` is open, and stays so. -/
theorem movedGuard_step (gw : Nat) (rest0 : List Instr) (lo hi : Nat)
    (prog : List Instr) (hprog : prog = Instr.wait gw :: rest0) :
    ∀ (c : Conf) (u : Nat) (d : Conf),
      (∀ t l, lo ≤ t → t < hi → c.threads.get? t = some l → l ≠ prog →
        c.gates.getD gw 0 = 0) →
      stepF c u = some d →
      (∀ t l, lo ≤ t → t < hi → d.threads.get? t = some l → l ≠ prog →
        d.gates.getD gw 0 = 0) := by
  intro c u d hP hstep t l hlo hhi hget hne
  have hzero : c.gates.getD gw 0 = 0 → d.gates.getD gw 0 = 0 := by
    intro hz
    have := (stepF_gate hstep gw).2.2
    omega
  by_cases hut : u = t
  · subst hut
    rcases stepF_eq_some hstep with ⟨rest, hcd | hw | hst⟩
    · rcases hcd with ⟨g, hth, hd⟩
      have hget2 : d.threads.get? u = some rest := by
        rw [hd]
        dsimp only
        exact List.get?_set_eq_of_lt _ (List.get?_eq_some.1 hth).1
      have hlr : l = rest := by
        rw [hget2] at hget
        exact (Option.some.injEq _ _ ▸ hget).symm ▸ rfl
      by_cases hcp : Instr.count_down g :: rest = prog
      · rw [hprog] at hcp
        exact absurd (List.cons_eq_cons.1 hcp).1 (by simp)
      · exact hzero (hP u _ hlo hhi hth hcp)
    · rcases hw with ⟨g, hth, hz, hd⟩
      by_cases hcp : Instr.wait g :: rest = prog
      · have hg : g = gw := by
          rw [hprog] at hcp
          have := (List.cons_eq_cons.1 hcp).1
          cases this
          rfl
        subst hg
        apply hzero hz
      · exact hzero (hP u _ hlo hhi hth hcp)
    · rcases hst with ⟨a, hth, hd⟩
      by_cases hcp : Instr.store a :: rest = prog
      · rw [hprog] at hcp
        exact absurd (List.cons_eq_cons.1 hcp).1 (by simp)
      · exact hzero (hP u _ hlo hhi hth hcp)
  · have hget2 : c.threads.get? t = some l := by
      rcases stepF_eq_some hstep with ⟨rest, hcd | hw | hst⟩
      · rcases hcd with ⟨g, hth, hd⟩
        rw [hd] at hget
        dsimp only at hget
        rw [List.get?_set_ne _ _ hut] at hget
        exact hget
      · rcases hw with ⟨g, hth, hz, hd⟩
        rw [hd] at hget
        dsimp only at hget
        rw [List.get?_set_ne _ _ hut] at hget
        exact hget
      · rcases hst with ⟨a, hth, hd⟩
        rw [hd] at hget
        dsimp only at hget
        rw [List.get?_set_ne _ _ hut] at hget
        exact hget
    exact hzero (hP t l hlo hhi hget2 hne)

/-! ## Claim theorems -/

/-- C1: in the multi-latch pipeline (`test_multi_latch.cpp`), under every
schedule, no stage-2 participant moves past its `stage1_latch.wait()`
before all three stage-1 `count_down` calls have occurred (all stage-1
programs have fully run), likewise stage 3 behind stage 2; and a stage-1
participant's program contains no prior `wait`. -/
theorem stage_ordering_multi_latch (sched : List Nat) (c : Conf)
    (h : runSched multiInit sched = some c) :
    (∀ t l, 3 ≤ t → t < 6 → c.threads.get? t = some l → l ≠ stage2Prog →
        ∀ u, u < 3 → c.threads.get? u = some ([] : List Instr)) ∧
    (∀ t l, 6 ≤ t → t < 9 → c.threads.get? t = some l → l ≠ stage3Prog →
        ∀ u, 3 ≤ u → u < 6 → c.threads.get? u = some ([] : List Instr)) ∧
    (∀ i ∈ stage1Prog, ∀ g, i ≠ Instr.wait g) := by
  have hlen : c.threads.length = 9 := by
    have h9 := (runSched_mem h 0).2.1
    simpa [multiInit] using h9
  refine ⟨?_, ?_, ?_⟩
  · intro t l h3 h6 hget hne u hu
    have hP2 : ∀ t2 l2, 3 ≤ t2 → t2 < 6 → c.threads.get? t2 = some l2 →
        l2 ≠ stage2Prog → c.gates.getD 0 0 = 0 := by
      refine runSched_preserve _
        (movedGuard_step 0 [Instr.count_down 1] 3 6 stage2Prog rfl)
        sched multiInit c h ?_
      intro t2 l2 h3b h6b hget2 hne2
      exfalso
      apply hne2
      interval_cases t2
      · exact (Option.some_inj.1 (show some stage2Prog = some l2 from hget2)).symm
      · exact (Option.some_inj.1 (show some stage2Prog = some l2 from hget2)).symm
      · exact (Option.some_inj.1 (show some stage2Prog = some l2 from hget2)).symm
    have hgate0 : c.gates.getD 0 0 = 0 := hP2 t l h3 h6 hget hne
    have hg := runSched_gate h 0
    have hrc : remCd 0 c = 0 := by
      have h1 : remCd 0 multiInit = 3 := by decide
      have h2 : multiInit.gates.getD 0 0 = 3 := by decide
      omega
    have hl0e : ∃ l0, c.threads.get? u = some l0 := by
      rw [List.get?_eq_get (show u < c.threads.length by omega)]
      exact ⟨_, rfl⟩
    rcases hl0e with ⟨l0, hl0⟩
    rcases runSched_suffix h u l0 hl0 with ⟨lbase, hbase, hsuf⟩
    have hbase2 : lbase = stage1Prog := by
      interval_cases u
      · exact (Option.some_inj.1 (show some stage1Prog = some lbase from hbase)).symm
      · exact (Option.some_inj.1 (show some stage1Prog = some lbase from hbase)).symm
      · exact (Option.some_inj.1 (show some stage1Prog = some lbase from hbase)).symm
    rw [hbase2] at hsuf
    have hcd0 : cdIn 0 l0 = 0 := cdIn_eq_zero_of_remCd hrc hl0
    rcases suffix_of_single
        (show l0 <:+ [Instr.count_down 0] from hsuf) with hl | hl
    · rw [hl] at hl0
      exact hl0
    · rw [hl] at hcd0
      exact absurd hcd0 (by decide)
  · intro t l h3 h6 hget hne u hu3 hu6
    have hP3 : ∀ t2 l2, 6 ≤ t2 → t2 < 9 → c.threads.get? t2 = some l2 →
        l2 ≠ stage3Prog → c.gates.getD 1 0 = 0 := by
      refine runSched_preserve _
        (movedGuard_step 1 [Instr.count_down 2] 6 9 stage3Prog rfl)
        sched multiInit c h ?_
      intro t2 l2 h3b h6b hget2 hne2
      exfalso
      apply hne2
      interval_cases t2
      · exact (Option.some_inj.1 (show some stage3Prog = some l2 from hget2)).symm
      · exact (Option.some_inj.1 (show some stage3Prog = some l2 from hget2)).symm
      · exact (Option.some_inj.1 (show some stage3Prog = some l2 from hget2)).symm
    have hgate1 : c.gates.getD 1 0 = 0 := hP3 t l h3 h6 hget hne
    have hg := runSched_gate h 1
    have hrc : remCd 1 c = 0 := by
      have h1 : remCd 1 multiInit = 3 := by decide
      have h2 : multiInit.gates.getD 1 0 = 3 := by decide
      omega
    have hl0e : ∃ l0, c.threads.get? u = some l0 := by
      rw [List.get?_eq_get (show u < c.threads.length by omega)]
      exact ⟨_, rfl⟩
    rcases hl0e with ⟨l0, hl0⟩
    rcases runSched_suffix h u l0 hl0 with ⟨lbase, hbase, hsuf⟩
    have hbase2 : lbase = stage2Prog := by
      interval_cases u
      · exact (Option.some_inj.1 (show some stage2Prog = some lbase from hbase)).symm
      · exact (Option.some_inj.1 (show some stage2Prog = some lbase from hbase)).symm
      · exact (Option.some_inj.1 (show some stage2Prog = some lbase from hbase)).symm
    rw [hbase2] at hsuf
    have hcd1 : cdIn 1 l0 = 0 := cdIn_eq_zero_of_remCd hrc hl0
    rcases suffix_of_pair
        (show l0 <:+ [Instr.wait 0, Instr.count_down 1] from hsuf) with hl | hl | hl
    · rw [hl] at hl0
      exact hl0
    · rw [hl] at hcd1
      exact absurd hcd1 (by decide)
    · rw [hl] at hcd1
      exact absurd hcd1 (by decide)
  · intro i hi g
    rw [stage1Prog] at hi
    rcases List.mem_singleton.1 hi with rfl
    simp

/-- Witness for C1: after the schedule that runs the three stage-1
decrements and lets stage-2 thread 3 pass its wait, the theorem yields
that all three stage-1 programs have fully run. -/
theorem stage_ordering_multi_latch_witness :
    (runSched multiInit [0, 1, 2, 3] = some
      { gates := [0, 3, 3], mem := [],
        threads := [[], [], [], [Instr.count_down 1],
                    stage2Prog, stage2Prog,
                    stage3Prog, stage3Prog, stage3Prog] }) ∧
    ({ gates := [0, 3, 3], mem := [],
        threads := [[], [], [], [Instr.count_down 1],
                    stage2Prog, stage2Prog,
                    stage3Prog, stage3Prog, stage3Prog] } : Conf).threads.get? 0 =
      some ([] : List Instr) ∧
    ({ gates := [0, 3, 3], mem := [],
        threads := [[], [], [], [Instr.count_down 1],
                    stage2Prog, stage2Prog,
                    stage3Prog, stage3Prog, stage3Prog] } : Conf).threads.get? 1 =
      some ([] : List Instr) ∧
    ({ gates := [0, 3, 3], mem := [],
        threads := [[], [], [], [Instr.count_down 1],
                    stage2Prog, stage2Prog,
                    stage3Prog, stage3Prog, stage3Prog] } : Conf).threads.get? 2 =
      some ([] : List Instr) := by
  have hrun : runSched multiInit [0, 1, 2, 3] = some
      { gates := [0, 3, 3], mem := [],
        threads := [[], [], [], [Instr.count_down 1],
                    stage2Prog, stage2Prog,
                    stage3Prog, stage3Prog, stage3Prog] } := by decide
  have hmain := (stage_ordering_multi_latch [0, 1, 2, 3] _ hrun).1
    3 [Instr.count_down 1] (by decide) (by decide) (by decide) (by decide)
  exact ⟨hrun, hmain 0 (by decide), hmain 1 (by decide), hmain 2 (by decide)⟩

theorem stepF_none_of_get?_none {c : Conf} {t : Nat}
    (h : c.threads.get? t = none) : stepF c t = none := by
  unfold stepF
  rw [h]

/-- Deadlock-freedom for latch demos whose threads all run `taskProg`
(`count_down` then `wait`): a stuck configuration has every program fully
run.  Covers both `test_latch.cpp` (3 threads) and `test_latch_full.cpp`
(4 threads) over a capacity-3 latch. -/
theorem stuck_all_done (init : Conf) (n : Nat)
    (hlen : init.threads.length = n)
    (hall : ∀ t, t < n → init.threads.get? t = some taskProg)
    (hgate : init.gates.getD 0 0 = 3) (hrem : remCd 0 init = n) (h3 : 3 ≤ n)
    (sched : List Nat) (c : Conf) (h : runSched init sched = some c)
    (hstuck : Stuck c) :
    ∀ t, t < n → c.threads.get? t = some ([] : List Instr) := by
  have hlen2 : c.threads.length = n := by
    rw [(runSched_mem h 0).2.1, hlen]
  have hshape : ∀ t l, c.threads.get? t = some l →
      l = [] ∨ l = [Instr.wait 0] := by
    intro t l hget
    rcases runSched_suffix h t l hget with ⟨base, hbase, hsuf⟩
    have htn : t < n := by
      have := (List.get?_eq_some.1 hbase).1
      omega
    rw [hall t htn] at hbase
    have hbt : base = taskProg := Option.some_inj.1 hbase.symm
    rw [hbt] at hsuf
    rcases suffix_of_pair
        (show l <:+ [Instr.count_down 0, Instr.wait 0] from hsuf) with hl | hl | hl
    · exact Or.inl hl
    · exact Or.inr hl
    · exfalso
      rw [hl] at hget
      exact stepF_cd_ne hget (hstuck t)
  have hrc : remCd 0 c = 0 := by
    rw [remCd]
    apply List.sum_eq_zero_iff.2
    intro x hx
    rcases List.mem_map.1 hx with ⟨l, hl, hxl⟩
    rcases List.mem_iff_get?.1 hl with ⟨t, hget⟩
    rcases hshape t l hget with h0 | h0
    · rw [← hxl, h0]
      decide
    · rw [← hxl, h0]
      decide
  have hg := runSched_gate h 0
  have hz : c.gates.getD 0 0 = 0 := by omega
  intro t htn
  have hsome : ∃ l, c.threads.get? t = some l := by
    rw [List.get?_eq_get (show t < c.threads.length by omega)]
    exact ⟨_, rfl⟩
  rcases hsome with ⟨l, hget⟩
  rcases hshape t l hget with h0 | h0
  · rw [h0] at hget
    exact hget
  · exfalso
    rw [h0] at hget
    exact stepF_wait_ne hget hz (hstuck t)

/-- C5: in `test_latch.cpp` (three threads each doing `count_down` then
`wait` on a capacity-3 latch) every maximal schedule terminates with all
programs fully run, so all `wait()` calls return; and a thread blocked in
`wait` on a latch whose counter is already zero can always proceed. -/
theorem latch_all_waits_return (sched : List Nat) (c : Conf)
    (h : runSched latchInit sched = some c) (hstuck : Stuck c) :
    (∀ t, t < 3 → c.threads.get? t = some ([] : List Instr)) ∧
    (∀ (x : Conf) (t g : Nat) (rest : List Instr),
        x.threads.get? t = some (Instr.wait g :: rest) →
        x.gates.getD g 0 = 0 → stepF x t ≠ none) := by
  refine ⟨?_, fun x t g rest hg hz => stepF_wait_ne hg hz⟩
  apply stuck_all_done latchInit 3 (by decide) ?_ (by decide) (by decide)
    (by decide) sched c h hstuck
  intro t ht
  interval_cases t
  · rfl
  · rfl
  · rfl

/-- Witness for C5: the schedule running the three decrements and the
three waits reaches the stuck all-done configuration. -/
theorem latch_all_waits_return_witness :
    (runSched latchInit [0, 1, 2, 0, 1, 2] = some
      { gates := [0], mem := [], threads := [[], [], []] }) ∧
    ({ gates := [0], mem := [], threads := [[], [], []] } : Conf).threads.get? 0 =
      some ([] : List Instr) ∧
    ({ gates := [0], mem := [], threads := [[], [], []] } : Conf).threads.get? 1 =
      some ([] : List Instr) ∧
    ({ gates := [0], mem := [], threads := [[], [], []] } : Conf).threads.get? 2 =
      some ([] : List Instr) := by
  have hrun : runSched latchInit [0, 1, 2, 0, 1, 2] = some
      { gates := [0], mem := [], threads := [[], [], []] } := by decide
  have hstuck : Stuck { gates := [0], mem := [], threads := [[], [], []] } := by
    intro t
    rcases t with _ | _ | _ | t
    · decide
    · decide
    · decide
    · apply stepF_none_of_get?_none
      rw [List.get?_eq_none]
      simp
  have hmain := (latch_all_waits_return [0, 1, 2, 0, 1, 2] _ hrun hstuck).1
  exact ⟨hrun, hmain 0 (by decide), hmain 1 (by decide), hmain 2 (by decide)⟩

/-- C10: `test_latch_full.cpp` initialises the latch with count 3 (line 53)
but issues four decrements (three `count_down` calls plus one
`arrive_and_wait`): the program carries 4 pending decrements against a
capacity of 3; under every schedule, a fourth decrement about to execute
(three decrements already done) finds the counter already at zero, and
every maximal schedule executes all four. -/
theorem latch_full_four_decrements (sched : List Nat) (c : Conf)
    (h : runSched latchFullInit sched = some c) :
    (remCd 0 latchFullInit = 4 ∧ latchFullInit.gates.getD 0 0 = 3) ∧
    (∀ t g rest, c.threads.get? t = some (Instr.count_down g :: rest) →
        remCd 0 latchFullInit - remCd 0 c = 3 → c.gates.getD 0 0 = 0) ∧
    (Stuck c → remCd 0 latchFullInit - remCd 0 c = 4) := by
  have hg := runSched_gate h 0
  refine ⟨⟨by decide, by decide⟩, ?_, ?_⟩
  · intro t g rest hget h3
    have h1 : remCd 0 latchFullInit = 4 := by decide
    have h2 : latchFullInit.gates.getD 0 0 = 3 := by decide
    omega
  · intro hstuck
    have hdone := stuck_all_done latchFullInit 4 (by decide) ?_ (by decide)
      (by decide) (by decide) sched c h hstuck
    · have hrc : remCd 0 c = 0 := by
        rw [remCd]
        apply List.sum_eq_zero_iff.2
        intro x hx
        rcases List.mem_map.1 hx with ⟨l, hl, hxl⟩
        rcases List.mem_iff_get?.1 hl with ⟨t, hget⟩
        have htn : t < 4 := by
          have ht1 := (List.get?_eq_some.1 hget).1
          have ht2 := (runSched_mem h 0).2.1
          rw [show latchFullInit.threads.length = 4 from rfl] at ht2
          omega
        have := hdone t htn
        rw [this] at hget
        rw [← hxl, ← Option.some_inj.1 hget]
        decide
      have h1 : remCd 0 latchFullInit = 4 := by decide
      omega
    · intro t ht
      interval_cases t
      · rfl
      · rfl
      · rfl
      · rfl

/-- Witness for C10: after three decrements the counter is zero while the
fourth thread still has its decrement pending. -/
theorem latch_full_four_decrements_witness :
    (runSched latchFullInit [0, 1, 2] = some
      { gates := [0], mem := [],
        threads := [[Instr.wait 0], [Instr.wait 0], [Instr.wait 0], taskProg] }) ∧
    ({ gates := [0], mem := [],
        threads := [[Instr.wait 0], [Instr.wait 0], [Instr.wait 0], taskProg] } :
        Conf).gates.getD 0 0 = 0 := by
  have hrun : runSched latchFullInit [0, 1, 2] = some
      { gates := [0], mem := [],
        threads := [[Instr.wait 0], [Instr.wait 0], [Instr.wait 0], taskProg] } := by
    decide
  refine ⟨hrun, ?_⟩
  exact (latch_full_four_decrements [0, 1, 2] _ hrun).2.1 3 0 [Instr.wait 0]
    (by decide) (by decide)

/-- C8: `is_ready()` is true exactly when the counter is zero and is a
pure, non-blocking query; on a capacity-`N` gate it is false before the
`N`-th arrival and true from the `N`-th on; and in `test_latch_full.cpp`
the latch reports ready at the end of every maximal schedule (the
`is_ready()` check after the joins, lines 99-107). -/
theorem is_ready_iff_counter_zero (N : Nat) (hN : 0 < N) :
    (∀ g : CountdownGate, g.is_ready = true ↔ g.remaining = 0) ∧
    (∀ k : Nat, ((CountdownGate.make N).arriveN k).is_ready = true ↔ N ≤ k) ∧
    (∀ sched c, runSched latchFullInit sched = some c → Stuck c →
        c.gates.getD 0 0 = 0) := by
  refine ⟨?_, ?_, ?_⟩
  · intro g
    rw [CountdownGate.is_ready]
    exact decide_eq_true_iff
  · intro k
    have hr := CountdownGate.remaining_arriveN N (by positivity) k
    rw [CountdownGate.is_ready, decide_eq_true_iff, hr]
    constructor
    · intro hm
      by_contra hk
      push_neg at hk
      have : (k : Int) < N := by exact_mod_cast hk
      omega
    · intro hk
      have : (N : Int) ≤ k := by exact_mod_cast hk
      omega
  · intro sched c h hstuck
    have hfour := (latch_full_four_decrements sched c h).2.2 hstuck
    have hg := runSched_gate h 0
    have h1 : remCd 0 latchFullInit = 4 := by decide
    have h2 : latchFullInit.gates.getD 0 0 = 3 := by decide
    omega

/-- Witness for C8: on a capacity-3 gate, three arrivals make `is_ready`
true. -/
theorem is_ready_iff_counter_zero_witness :
    ((CountdownGate.make 3).arriveN 3).is_ready = true ∧
    (CountdownGate.make 3).is_ready = false := by
  constructor
  · exact ((is_ready_iff_counter_zero 3 (by decide)).2.1 3).2 (by decide)
  · decide

/-- C7: extra `arrive()` calls beyond capacity clamp deterministically:
for every capacity `C > 0` the counter after any number of arrivals stays
within `[0, C]`, reaches exactly 0 once the arrivals meet the capacity, and
in particular the four decrements of `test_latch_full.cpp` against its
capacity-3 latch leave the counter at exactly 0. -/
theorem arrive_overflow_clamps (C : Int) (hC : 0 < C) :
    (∀ k : Nat, 0 ≤ ((CountdownGate.make C).arriveN k).remaining ∧
        ((CountdownGate.make C).arriveN k).remaining ≤ C) ∧
    (∀ k : Nat, C ≤ (k : Int) →
        ((CountdownGate.make C).arriveN k).remaining = 0) ∧
    ((CountdownGate.make 3).arriveN 4).remaining = 0 := by
  refine ⟨?_, ?_, by decide⟩
  · intro k
    have hr := CountdownGate.remaining_arriveN C (le_of_lt hC) k
    rw [hr]
    constructor
    · exact le_max_right _ _
    · rw [max_le_iff]
      constructor
      · omega
      · omega
  · intro k hk
    have hr := CountdownGate.remaining_arriveN C (le_of_lt hC) k
    rw [hr]
    omega

/-- Witness for C7: a capacity-3 gate stays within bounds after two
arrivals. -/
theorem arrive_overflow_clamps_witness :
    0 ≤ ((CountdownGate.make 3).arriveN 2).remaining ∧
    ((CountdownGate.make 3).arriveN 2).remaining ≤ 3 :=
  (arrive_overflow_clamps 3 (by decide)).1 2

/-- C4: for every capacity `C > 0` and every sequence of `arrive`, `wait`,
`isReady` operations, the gate invariant `0 ≤ remaining ≤ capacity = C`
holds, and once `remaining` reaches 0 it never changes again (the gate is
permanently open and single-use). -/
theorem gate_counter_invariant (C : Int) (hC : 0 < C) (ops : List GateOp) :
    0 ≤ ((CountdownGate.make C).applyOps ops).remaining ∧
    ((CountdownGate.make C).applyOps ops).remaining ≤ C ∧
    ((CountdownGate.make C).applyOps ops).capacity = C ∧
    (((CountdownGate.make C).applyOps ops).remaining = 0 →
        ∀ more, (((CountdownGate.make C).applyOps ops).applyOps more).remaining = 0) := by
  refine ⟨?_, ?_, ?_, ?_⟩
  · exact CountdownGate.remaining_applyOps_nonneg _ ops (le_of_lt hC)
  · exact le_trans (CountdownGate.remaining_applyOps_le _ ops) (le_of_eq rfl)
  · exact CountdownGate.capacity_applyOps _ ops
  · intro hz more
    exact CountdownGate.remaining_applyOps_zero _ more hz

/-- Witness for C4: two arrivals and a query on a capacity-3 gate. -/
theorem gate_counter_invariant_witness :
    0 ≤ ((CountdownGate.make 3).applyOps
        [GateOp.arriveOp, GateOp.isReadyOp, GateOp.arriveOp]).remaining ∧
    ((CountdownGate.make 3).applyOps
        [GateOp.arriveOp, GateOp.isReadyOp, GateOp.arriveOp]).remaining ≤ 3 := by
  have hw := gate_counter_invariant 3 (by decide)
    [GateOp.arriveOp, GateOp.isReadyOp, GateOp.arriveOp]
  exact ⟨hw.1, hw.2.1⟩

/-- C6: `arrive_and_wait()` as a single logical step equals `arrive()`
followed by `wait()`: same resulting gate state, same return condition;
and an `is_ready()` query of the combined step's state agrees with its
return flag, so no observation reflects only part of the combined step. -/
theorem arrive_and_wait_equals_arrive_then_wait (g : CountdownGate) :
    g.arrive_and_wait = (g.arrive, g.arrive.wait_returns) ∧
    g.arrive_and_wait.1.is_ready = g.arrive_and_wait.2 ∧
    g.arrive_and_wait.1 = g.applyOps [GateOp.arriveOp, GateOp.waitOp] := by
  by_cases h : 0 < g.remaining
  · refine ⟨?_, ?_, ?_⟩
    · rw [CountdownGate.arrive_and_wait, CountdownGate.arrive,
          CountdownGate.wait_returns, if_pos h, if_pos h]
    · rw [CountdownGate.arrive_and_wait, CountdownGate.is_ready, if_pos h]
    · rw [CountdownGate.arrive_and_wait, if_pos h]
      rw [show g.applyOps [GateOp.arriveOp, GateOp.waitOp] = g.arrive from rfl]
      rw [CountdownGate.arrive, if_pos h]
  · refine ⟨?_, ?_, ?_⟩
    · rw [CountdownGate.arrive_and_wait, CountdownGate.arrive,
          CountdownGate.wait_returns, if_neg h, if_neg h]
    · rw [CountdownGate.arrive_and_wait, CountdownGate.is_ready, if_neg h]
    · rw [CountdownGate.arrive_and_wait, if_neg h]
      rw [show g.applyOps [GateOp.arriveOp, GateOp.waitOp] = g.arrive from rfl]
      rw [CountdownGate.arrive, if_neg h]

theorem stepF_get?_ne {c : Conf} {u : Nat} {d : Conf}
    (h : stepF c u = some d) {t : Nat} (hne : u ≠ t) :
    d.threads.get? t = c.threads.get? t := by
  rcases stepF_eq_some h with ⟨rest, hcd | hw | hst⟩
  · rcases hcd with ⟨g, hth, hd⟩
    rw [hd]
    dsimp only
    exact List.get?_set_ne _ _ hne
  · rcases hw with ⟨g, hth, hz, hd⟩
    rw [hd]
    dsimp only
    exact List.get?_set_ne _ _ hne
  · rcases hst with ⟨a, hth, hd⟩
    rw [hd]
    dsimp only
    exact List.get?_set_ne _ _ hne

/-- Invariant for the visibility configuration: every thread's program is
a suffix of its initial one, and a fully finished thread implies the latch
is open (its final `wait` had to observe counter zero). -/
def VisInv (c : Conf) : Prop :=
  (∀ t l, c.threads.get? t = some l → l <:+ visProg t) ∧
  (∀ t l, c.threads.get? t = some l → l = [] → c.gates.getD 0 0 = 0)

theorem visInv_step : ∀ (c : Conf) (u : Nat) (d : Conf),
    VisInv c → stepF c u = some d → VisInv d := by
  intro c u d hI hstep
  rcases hI with ⟨hS, hP⟩
  have hzero : c.gates.getD 0 0 = 0 → d.gates.getD 0 0 = 0 := by
    have := (stepF_gate hstep 0).2.2
    omega
  constructor
  · intro t l hget
    rcases stepF_suffix hstep t l hget with ⟨m, hm, hsuf⟩
    exact hsuf.trans (hS t m hm)
  · intro t l hget hnil
    subst hnil
    by_cases hut : u = t
    · subst hut
      rcases stepF_eq_some hstep with ⟨rest, hcd | hw | hst⟩
      · rcases hcd with ⟨g, hth, hd⟩
        have hget2 : d.threads.get? u = some rest := by
          rw [hd]
          dsimp only
          exact List.get?_set_eq_of_lt _ (List.get?_eq_some.1 hth).1
        have hre : rest = [] := Option.some_inj.1 (hget2.symm.trans hget)
        have hsufc := hS u _ hth
        rw [hre] at hsufc
        rcases suffix_of_triple (show [Instr.count_down g] <:+
            [Instr.store u, Instr.count_down 0, Instr.wait 0] from hsufc)
          with h0 | h0 | h0 | h0
        · simp at h0
        · simp at h0
        · simp at h0
        · simp at h0
      · rcases hw with ⟨g, hth, hz, hd⟩
        have hsufc := hS u _ hth
        rcases suffix_of_triple (show Instr.wait g :: rest <:+
            [Instr.store u, Instr.count_down 0, Instr.wait 0] from hsufc)
          with h0 | h0 | h0 | h0
        · simp at h0
        · have h1 := (List.cons_eq_cons.1 h0).1
          cases h1
          exact hzero hz
        · exact absurd (List.cons_eq_cons.1 h0).1 (by simp)
        · exact absurd (List.cons_eq_cons.1 h0).1 (by simp)
      · rcases hst with ⟨a, hth, hd⟩
        have hget2 : d.threads.get? u = some rest := by
          rw [hd]
          dsimp only
          exact List.get?_set_eq_of_lt _ (List.get?_eq_some.1 hth).1
        have hre : rest = [] := Option.some_inj.1 (hget2.symm.trans hget)
        have hsufc := hS u _ hth
        rw [hre] at hsufc
        rcases suffix_of_triple (show [Instr.store a] <:+
            [Instr.store u, Instr.count_down 0, Instr.wait 0] from hsufc)
          with h0 | h0 | h0 | h0
        · simp at h0
        · simp at h0
        · simp at h0
        · rcases List.cons_eq_cons.1 h0 with ⟨_, h1⟩
          simp at h1
    · have hget2 : c.threads.get? t = some [] := by
        rw [← stepF_get?_ne hstep hut]
        exact hget
      exact hzero (hP t [] hget2 rfl)

/-- C9: happens-before across the gate, in the interleaving model: each
task of the latch demo writes its flag (its memory actions before
arriving), then decrements, then waits.  Whenever any thread has returned
from its `wait` (program fully run), all three flags are visible: every
write performed before an `arrive` is seen after the corresponding `wait`
returns. -/
theorem gate_release_visibility (sched : List Nat) (c : Conf)
    (h : runSched visInit sched = some c) (t : Nat)
    (hdone : c.threads.get? t = some ([] : List Instr)) :
    c.mem.getD 0 false = true ∧ c.mem.getD 1 false = true ∧
      c.mem.getD 2 false = true := by
  have hinv : VisInv c := by
    refine runSched_preserve VisInv visInv_step sched visInit c h ⟨?_, ?_⟩
    · intro u l hget
      rcases u with _ | _ | _ | u
      · rw [← (Option.some_inj.1 (show some (visProg 0) = some l from hget))]
      · rw [← (Option.some_inj.1 (show some (visProg 1) = some l from hget))]
      · rw [← (Option.some_inj.1 (show some (visProg 2) = some l from hget))]
      · have hn : visInit.threads.get? (u + 3) = none := by
          rw [List.get?_eq_none]
          simp [visInit]
        rw [hn] at hget
        exact absurd hget (by simp)
    · intro u l hget hnil
      subst hnil
      rcases u with _ | _ | _ | u
      · have := Option.some_inj.1 (show some (visProg 0) = some ([] : List Instr) from hget)
        simp [visProg] at this
      · have := Option.some_inj.1 (show some (visProg 1) = some ([] : List Instr) from hget)
        simp [visProg] at this
      · have := Option.some_inj.1 (show some (visProg 2) = some ([] : List Instr) from hget)
        simp [visProg] at this
      · have hn : visInit.threads.get? (u + 3) = none := by
          rw [List.get?_eq_none]
          simp [visInit]
        rw [hn] at hget
        exact absurd hget (by simp)
  have hgate0 : c.gates.getD 0 0 = 0 := hinv.2 t [] hdone rfl
  have hg := runSched_gate h 0
  have hrc : remCd 0 c = 0 := by
    have h1 : remCd 0 visInit = 3 := by decide
    have h2 : visInit.gates.getD 0 0 = 3 := by decide
    omega
  have hshape : ∀ u l, c.threads.get? u = some l →
      l = [] ∨ l = [Instr.wait 0] := by
    intro u l hget
    have hsuf := hinv.1 u l hget
    have hcd := cdIn_eq_zero_of_remCd hrc hget
    rcases suffix_of_triple (show l <:+
        [Instr.store u, Instr.count_down 0, Instr.wait 0] from hsuf)
      with h0 | h0 | h0 | h0
    · exact Or.inl h0
    · exact Or.inr h0
    · rw [h0] at hcd
      exact absurd hcd (by decide)
    · rw [h0, cdIn_cons, if_neg (by simp)] at hcd
      exact absurd hcd (by decide)
  have hst0 : ∀ a : Nat, remSt a c = 0 := by
    intro a
    rw [remSt]
    apply List.sum_eq_zero_iff.2
    intro x hx
    rcases List.mem_map.1 hx with ⟨l, hl, hxl⟩
    rcases List.mem_iff_get?.1 hl with ⟨u, hget⟩
    rcases hshape u l hget with h0 | h0
    · rw [← hxl, h0]
      simp [stIn]
    · rw [← hxl, h0]
      simp [stIn]
  refine ⟨?_, ?_, ?_⟩
  · have hm := runSched_mem h 0
    exact hm.2.2.2.2 (by decide) (by rw [hst0 0]; decide)
  · have hm := runSched_mem h 1
    exact hm.2.2.2.2 (by decide) (by rw [hst0 1]; decide)
  · have hm := runSched_mem h 2
    exact hm.2.2.2.2 (by decide) (by rw [hst0 2]; decide)

/-- Witness for C9: the schedule that runs all three tasks to completion
shows all three flags set once a thread has passed its wait. -/
theorem gate_release_visibility_witness :
    (runSched visInit [0, 0, 1, 1, 2, 2, 0, 1, 2] = some
      { gates := [0], mem := [true, true, true], threads := [[], [], []] }) ∧
    ({ gates := [0], mem := [true, true, true],
        threads := [[], [], []] } : Conf).mem.getD 0 false = true ∧
    ({ gates := [0], mem := [true, true, true],
        threads := [[], [], []] } : Conf).mem.getD 1 false = true ∧
    ({ gates := [0], mem := [true, true, true],
        threads := [[], [], []] } : Conf).mem.getD 2 false = true := by
  have hrun : runSched visInit [0, 0, 1, 1, 2, 2, 0, 1, 2] = some
      { gates := [0], mem := [true, true, true], threads := [[], [], []] } := by
    decide
  have hmain := gate_release_visibility [0, 0, 1, 1, 2, 2, 0, 1, 2] _ hrun 0 (by decide)
  exact ⟨hrun, hmain.1, hmain.2.1, hmain.2.2⟩

/-! ## ReusableBarrier

Modelled from the spec: the repository's barrier demos (`test_barrier.cpp`,
`test_barier_latch.cpp`) use `std::barrier`, whose implementation is not
under `src/`; §3 and §4.2 of the spec give the state
`{threshold, arrived, generation, onComplete}` and `arrive()`: the
threshold-th arrival of a generation runs the completion action, resets
`arrived`, and increments `generation` in one atomic step, strictly before
any waiter of that generation is released; a waiter of generation `g` is
released only once `generation > g`.

A thread's phase is `work k` (it has completed `k` full cycles and has not
yet arrived for the next) or `waiting g k` (it arrived during its `k`-th
cycle while the generation was `g` and is blocked).  `completions` counts
how many times the completion action has run.  `K` is the number of cycles
each participant performs (`test_barrier.cpp` runs one; the spec's
testable property quantifies over `K`). -/

inductive BPhase where
  | work (k : Nat)
  | waiting (g : Nat) (k : Nat)
deriving DecidableEq

structure BConf where
  arrived : Nat
  gen : Nat
  completions : Nat
  threads : List BPhase
deriving DecidableEq

/-- One `arrive()` interaction of thread `t` with the barrier: a working
thread (with cycles left) arrives — reaching the threshold
`threads.length` runs the completion, resets `arrived` and advances the
generation in the same atomic step; otherwise the thread blocks tagged
with the current generation.  A blocked thread resumes only once the
generation has advanced past its tag. -/
def bstep (K : Nat) (c : BConf) (t : Nat) : Option BConf :=
  match c.threads.get? t with
  | none => none
  | some (BPhase.work k) =>
      if k < K then
        if c.arrived + 1 = c.threads.length then
          some { arrived := 0, gen := c.gen + 1, completions := c.completions + 1,
                 threads := c.threads.set t (BPhase.work (k + 1)) }
        else
          some { arrived := c.arrived + 1, gen := c.gen,
                 completions := c.completions,
                 threads := c.threads.set t (BPhase.waiting c.gen k) }
      else none
  | some (BPhase.waiting g k) =>
      if g < c.gen then
        some { c with threads := c.threads.set t (BPhase.work (k + 1)) }
      else none

/-- Execute a schedule of thread indices against the barrier. -/
def brun (K : Nat) (c : BConf) : List Nat → Option BConf
  | [] => some c
  | t :: s =>
      match bstep K c t with
      | none => none
      | some d => brun K d s

/-- `N` participants, before any cycle. -/
def binit (N : Nat) : BConf :=
  { arrived := 0, gen := 0, completions := 0,
    threads := List.replicate N (BPhase.work 0) }

/-- No thread can interact with the barrier. -/
def BStuck (K : Nat) (c : BConf) : Prop := ∀ t, bstep K c t = none

/-- The generation tag an arrival by thread `t` would be counted into. -/
def tagAt (c : BConf) (t : Nat) : List Nat :=
  match c.threads.get? t with
  | some (BPhase.work _) => [c.gen]
  | _ => []

/-- The generation tags of all arrivals along a schedule, in order. -/
def genTags (K : Nat) (c : BConf) : List Nat → List Nat
  | [] => []
  | t :: s =>
      match bstep K c t with
      | none => []
      | some d => tagAt c t ++ genTags K d s

/-- The generation tags of thread `t0`'s arrivals along a schedule. -/
def tagsOfT (K : Nat) (t0 : Nat) (c : BConf) : List Nat → List Nat
  | [] => []
  | t :: s =>
      match bstep K c t with
      | none => []
      | some d => (if t = t0 then tagAt c t else []) ++ tagsOfT K t0 d s

/-- Arrivals a thread has made: `k` full cycles plus a pending one when
blocked. -/
def aCnt : BPhase → Nat
  | BPhase.work k => k
  | BPhase.waiting _ k => k + 1

def aCntAt (c : BConf) (t : Nat) : Nat :=
  match c.threads.get? t with
  | some p => aCnt p
  | none => 0

/-- Is this phase a waiter of the current generation? -/
def currentWaiter (gen : Nat) : BPhase → Bool
  | BPhase.waiting g _ => g = gen
  | _ => false

def phaseOk (K gen : Nat) : BPhase → Prop
  | BPhase.work k => k ≤ gen ∧ k ≤ K
  | BPhase.waiting g k => g = k ∧ g ≤ gen ∧ k < K

/-- The barrier invariant: the completion count equals the generation;
`arrived` counts exactly the current generation's waiters and is below the
threshold; total arrivals split as full generations plus the current
count; and every phase is well-formed. -/
def BInv (K : Nat) (c : BConf) : Prop :=
  c.completions = c.gen ∧
  c.arrived = c.threads.countP (currentWaiter c.gen) ∧
  c.arrived < c.threads.length ∧
  (c.threads.map aCnt).sum = c.gen * c.threads.length + c.arrived ∧
  (∀ p ∈ c.threads, phaseOk K c.gen p)

/-- Inversion principle for `bstep`. -/
theorem bstep_eq_some {K : Nat} {c : BConf} {t : Nat} {d : BConf}
    (h : bstep K c t = some d) :
    (∃ k, c.threads.get? t = some (BPhase.work k) ∧ k < K ∧
      ((c.arrived + 1 = c.threads.length ∧
        d = { arrived := 0, gen := c.gen + 1, completions := c.completions + 1,
              threads := c.threads.set t (BPhase.work (k + 1)) }) ∨
       (c.arrived + 1 ≠ c.threads.length ∧
        d = { arrived := c.arrived + 1, gen := c.gen,
              completions := c.completions,
              threads := c.threads.set t (BPhase.waiting c.gen k) }))) ∨
    (∃ g k, c.threads.get? t = some (BPhase.waiting g k) ∧ g < c.gen ∧
      d = { c with threads := c.threads.set t (BPhase.work (k + 1)) }) := by
  rw [bstep] at h
  rcases hg : c.threads.get? t with _ | p
  · rw [hg] at h
    exact absurd h (by simp)
  · rcases p with k | ⟨g, k⟩
    · rw [hg] at h
      dsimp only at h
      by_cases hk : k < K
      · rw [if_pos hk] at h
        by_cases hthr : c.arrived + 1 = c.threads.length
        · rw [if_pos hthr] at h
          simp only [Option.some.injEq] at h
          exact Or.inl ⟨k, rfl, hk, Or.inl ⟨hthr, h.symm⟩⟩
        · rw [if_neg hthr] at h
          simp only [Option.some.injEq] at h
          exact Or.inl ⟨k, rfl, hk, Or.inr ⟨hthr, h.symm⟩⟩
      · rw [if_neg hk] at h
        exact absurd h (by simp)
    · rw [hg] at h
      dsimp only at h
      by_cases hgen : g < c.gen
      · rw [if_pos hgen] at h
        simp only [Option.some.injEq] at h
        exact Or.inr ⟨g, k, rfl, hgen, h.symm⟩
      · rw [if_neg hgen] at h
        exact absurd h (by simp)

theorem bstep_none_of_get?_none {K : Nat} {c : BConf} {t : Nat}
    (h : c.threads.get? t = none) : bstep K c t = none := by
  rw [bstep, h]

/-- Invariant lifting for the barrier. -/
theorem brun_preserve (K : Nat) (P : BConf → Prop)
    (hstep : ∀ c t d, P c → bstep K c t = some d → P d) :
    ∀ (sched : List Nat) (c d : BConf), brun K c sched = some d → P c → P d := by
  intro sched
  induction sched with
  | nil =>
      intro c d h hc
      rw [brun] at h
      cases h
      exact hc
  | cons t s ih =>
      intro c d h hc
      rw [brun] at h
      rcases he : bstep K c t with _ | e
      · rw [he] at h
        exact absurd h (by simp)
      · rw [he] at h
        exact ih e d h (hstep c t e hc he)

theorem countP_eq_sum_map {α : Type} (p : α → Bool) (l : List α) :
    l.countP p = (l.map (fun x => if p x then 1 else 0)).sum := by
  induction l with
  | nil => rfl
  | cons a l ih =>
      rw [List.countP_cons, List.map_cons, List.sum_cons, ih]
      by_cases h : p a
      · rw [if_pos h]
        omega
      · rw [if_neg h]
        omega

theorem countP_set {α : Type} (p : α → Bool) (l : List α) (t : Nat) (x a : α)
    (h : l.get? t = some a) :
    (l.set t x).countP p + (if p a then 1 else 0) =
      l.countP p + (if p x then 1 else 0) := by
  rw [countP_eq_sum_map, countP_eq_sum_map]
  exact sum_map_set _ l t x a h

theorem sum_map_le {α : Type} (f B : α → Nat) :
    ∀ l : List α, (∀ x ∈ l, f x ≤ B x) → (l.map f).sum ≤ (l.map B).sum := by
  intro l
  induction l with
  | nil => intro _; exact le_refl _
  | cons a l ih =>
      intro hle
      rw [List.map_cons, List.map_cons, List.sum_cons, List.sum_cons]
      have h1 : f a ≤ B a := hle a (List.mem_cons_self _ _)
      have h2 := ih (fun x hx => hle x (List.mem_cons_of_mem _ hx))
      omega

/-- If `f ≤ B` pointwise on a list and the sums agree, then `f = B`
pointwise on the list. -/
theorem sum_forcing {α : Type} (f B : α → Nat) :
    ∀ l : List α, (∀ x ∈ l, f x ≤ B x) →
      (l.map f).sum = (l.map B).sum → ∀ x ∈ l, f x = B x := by
  intro l
  induction l with
  | nil => intro _ _ x hx; simp at hx
  | cons a l ih =>
      intro hle hsum x hx
      rw [List.map_cons, List.map_cons, List.sum_cons, List.sum_cons] at hsum
      have h1 : f a ≤ B a := hle a (List.mem_cons_self _ _)
      have h2 := sum_map_le f B l (fun y hy => hle y (List.mem_cons_of_mem _ hy))
      rcases List.mem_cons.1 hx with rfl | hx2
      · omega
      · exact ih (fun y hy => hle y (List.mem_cons_of_mem _ hy)) (by omega) x hx2

theorem sum_map_waiterBound (gen : Nat) :
    ∀ l : List BPhase,
      (l.map (fun p => if currentWaiter gen p then gen + 1 else gen)).sum =
        gen * l.length + l.countP (currentWaiter gen) := by
  intro l
  induction l with
  | nil => simp
  | cons a l ih =>
      rw [List.map_cons, List.sum_cons, ih, List.countP_cons, List.length_cons]
      by_cases h : currentWaiter gen a
      · rw [if_pos h, if_pos h]
        have : gen * (l.length + 1) = gen * l.length + gen := by ring
        omega
      · rw [if_neg h, if_neg h]
        have : gen * (l.length + 1) = gen * l.length + gen := by ring
        omega

/-- The counting part of the invariant forces every phase's arrival count:
`gen + 1` for a current-generation waiter and exactly `gen` otherwise. -/
theorem binv_aCnt_eq {K : Nat} {c : BConf} (hI : BInv K c) :
    ∀ p ∈ c.threads,
      aCnt p = if currentWaiter c.gen p then c.gen + 1 else c.gen := by
  rcases hI with ⟨h1, h2, h3, h4, h5⟩
  apply sum_forcing
  · intro p hp
    have hok := h5 p hp
    rcases p with k | ⟨g, k⟩
    · rw [phaseOk] at hok
      rw [if_neg (by rw [show currentWaiter c.gen (BPhase.work k) = false from rfl]; simp)]
      exact hok.1
    · rw [phaseOk] at hok
      by_cases hg : g = c.gen
      · rw [if_pos (by rw [show currentWaiter c.gen (BPhase.waiting g k) =
              decide (g = c.gen) from rfl]; simp [hg]), aCnt]
        omega
      · rw [if_neg (by rw [show currentWaiter c.gen (BPhase.waiting g k) =
              decide (g = c.gen) from rfl]; simp [hg]), aCnt]
        rcases hok with ⟨hgk, hgle, _⟩
        omega
  · rw [h4, sum_map_waiterBound, ← h2]

theorem binv_work_gen {K : Nat} {c : BConf} (hI : BInv K c) {t k : Nat}
    (ht : c.threads.get? t = some (BPhase.work k)) : k = c.gen := by
  have := binv_aCnt_eq hI _ (List.get?_mem ht)
  rw [aCnt, if_neg (by simp
    [show currentWaiter c.gen (BPhase.work k) = false from rfl])] at this
  exact this

theorem binv_waiting_facts {K : Nat} {c : BConf} (hI : BInv K c)
    {t g k : Nat} (ht : c.threads.get? t = some (BPhase.waiting g k)) :
    g = k ∧ (g = c.gen ∨ k + 1 = c.gen) := by
  have hmem := List.get?_mem ht
  have hok := hI.2.2.2.2 _ hmem
  rw [phaseOk] at hok
  refine ⟨hok.1, ?_⟩
  by_cases hg : g = c.gen
  · exact Or.inl hg
  · right
    have := binv_aCnt_eq hI _ hmem
    rw [aCnt, if_neg (by rw [show currentWaiter c.gen (BPhase.waiting g k) =
        decide (g = c.gen) from rfl]; simp [hg])] at this
    exact this

theorem phaseOk_mono {K g g2 : Nat} {p : BPhase} (h : phaseOk K g p)
    (hle : g ≤ g2) : phaseOk K g2 p := by
  rcases p with k | ⟨gg, k⟩
  · rw [phaseOk] at h ⊢
    omega
  · rw [phaseOk] at h ⊢
    omega

/-- The barrier invariant is preserved by every step. -/
theorem binv_step {K : Nat} {c : BConf} {t : Nat} {d : BConf}
    (h : bstep K c t = some d) (hI : BInv K c) : BInv K d := by
  have hIc := hI
  rcases hI with ⟨h1, h2, h3, h4, h5⟩
  rcases bstep_eq_some h with ⟨k, ht, hk, hcase⟩ | ⟨g, k, ht, hg, hd⟩
  · have hkg : k = c.gen := binv_work_gen hIc ht
    rcases hcase with ⟨hthr, hd⟩ | ⟨hthr, hd⟩
    · subst hd
      have hsum := sum_map_set aCnt c.threads t (BPhase.work (k + 1)) _ ht
      rw [show aCnt (BPhase.work k) = k from rfl,
          show aCnt (BPhase.work (k + 1)) = k + 1 from rfl] at hsum
      refine ⟨?_, ?_, ?_, ?_, ?_⟩
      · dsimp only
        omega
      · dsimp only
        symm
        rw [List.countP_eq_zero]
        intro p hp
        rcases List.mem_or_eq_of_mem_set hp with hmem | rfl
        · have hok := h5 p hmem
          rcases p with k2 | ⟨g2, k2⟩
          · rw [show currentWaiter (c.gen + 1) (BPhase.work k2) = false from rfl]
            simp
          · rw [phaseOk] at hok
            rw [show currentWaiter (c.gen + 1) (BPhase.waiting g2 k2) =
                decide (g2 = c.gen + 1) from rfl]
            simp
            omega
        · rw [show currentWaiter (c.gen + 1) (BPhase.work (k + 1)) = false from rfl]
          simp
      · dsimp only
        rw [List.length_set]
        omega
      · dsimp only
        rw [List.length_set]
        have hr : (c.gen + 1) * c.threads.length =
            c.gen * c.threads.length + c.threads.length := by ring
        omega
      · dsimp only
        intro p hp
        rcases List.mem_or_eq_of_mem_set hp with hmem | rfl
        · exact phaseOk_mono (h5 p hmem) (by omega)
        · rw [phaseOk]
          omega
    · subst hd
      have hsum := sum_map_set aCnt c.threads t (BPhase.waiting c.gen k) _ ht
      rw [show aCnt (BPhase.work k) = k from rfl,
          show aCnt (BPhase.waiting c.gen k) = k + 1 from rfl] at hsum
      have hcnt := countP_set (currentWaiter c.gen) c.threads t
        (BPhase.waiting c.gen k) _ ht
      rw [show currentWaiter c.gen (BPhase.work k) = false from rfl] at hcnt
      have e2 : currentWaiter c.gen (BPhase.waiting c.gen k) = true := by
        rw [show currentWaiter c.gen (BPhase.waiting c.gen k) =
            decide (c.gen = c.gen) from rfl]
        simp
      rw [e2] at hcnt
      simp only [if_true, if_false, Bool.false_eq_true] at hcnt
      refine ⟨?_, ?_, ?_, ?_, ?_⟩
      · dsimp only
        omega
      · dsimp only
        omega
      · dsimp only
        rw [List.length_set]
        omega
      · dsimp only
        rw [List.length_set]
        omega
      · dsimp only
        intro p hp
        rcases List.mem_or_eq_of_mem_set hp with hmem | rfl
        · exact phaseOk_mono (h5 p hmem) (le_refl _)
        · rw [phaseOk]
          omega
  · have hfacts := binv_waiting_facts hIc ht
    have hok := h5 _ (List.get?_mem ht)
    rw [phaseOk] at hok
    have hkg : k + 1 = c.gen := by
      rcases hfacts.2 with hc | hc
      · omega
      · exact hc
    subst hd
    have hsum := sum_map_set aCnt c.threads t (BPhase.work (k + 1)) _ ht
    rw [show aCnt (BPhase.waiting g k) = k + 1 from rfl,
        show aCnt (BPhase.work (k + 1)) = k + 1 from rfl] at hsum
    have hcnt := countP_set (currentWaiter c.gen) c.threads t
      (BPhase.work (k + 1)) _ ht
    rw [show currentWaiter c.gen (BPhase.work (k + 1)) = false from rfl] at hcnt
    have e2 : currentWaiter c.gen (BPhase.waiting g k) = false := by
      rw [show currentWaiter c.gen (BPhase.waiting g k) =
          decide (g = c.gen) from rfl]
      simp
      omega
    rw [e2] at hcnt
    simp only [if_true, if_false, Bool.false_eq_true] at hcnt
    refine ⟨?_, ?_, ?_, ?_, ?_⟩
    · dsimp only
      omega
    · dsimp only
      omega
    · dsimp only
      rw [List.length_set]
      omega
    · dsimp only
      rw [List.length_set]
      omega
    · dsimp only
      intro p hp
      rcases List.mem_or_eq_of_mem_set hp with hmem | rfl
      · exact phaseOk_mono (h5 p hmem) (le_refl _)
      · rw [phaseOk]
        omega

/-- The invariant holds initially for at least one participant. -/
theorem binv_init (N K : Nat) (hN : 1 ≤ N) : BInv K (binit N) := by
  refine ⟨rfl, ?_, ?_, ?_, ?_⟩
  · rw [binit]
    symm
    rw [List.countP_eq_zero]
    intro p hp
    rw [List.eq_of_mem_replicate hp]
    rw [show currentWaiter 0 (BPhase.work 0) = false from rfl]
    simp
  · rw [binit]
    dsimp only
    rw [List.length_replicate]
    omega
  · rw [binit]
    dsimp only
    rw [List.map_replicate]
    rw [show aCnt (BPhase.work 0) = 0 from rfl]
    rw [List.sum_replicate]
    simp
  · rw [binit]
    dsimp only
    intro p hp
    rw [List.eq_of_mem_replicate hp, phaseOk]
    omega

theorem bstep_length {K : Nat} {c : BConf} {t : Nat} {d : BConf}
    (h : bstep K c t = some d) : d.threads.length = c.threads.length := by
  rcases bstep_eq_some h with ⟨k, ht, hk, ⟨_, hd⟩ | ⟨_, hd⟩⟩ | ⟨g, k, ht, hg, hd⟩
  · subst hd
    dsimp only
    rw [List.length_set]
  · subst hd
    dsimp only
    rw [List.length_set]
  · subst hd
    dsimp only
    rw [List.length_set]

/-- How many arrivals a generation has received, read off the state: `N`
for every finished generation, `arrived` for the current one, none for
future ones. -/
def stateTag (c : BConf) (G : Nat) : Nat :=
  if G < c.gen then c.threads.length else if G = c.gen then c.arrived else 0

/-- Trace accounting: along any successful schedule, the number of
arrivals tagged `G` equals the change of `stateTag G`. -/
theorem genTags_count (K : Nat) :
    ∀ (sched : List Nat) (c d : BConf), BInv K c → brun K c sched = some d →
      ∀ G, (genTags K c sched).count G + stateTag c G = stateTag d G := by
  intro sched
  induction sched with
  | nil =>
      intro c d _ h G
      rw [brun] at h
      cases h
      rw [genTags]
      simp
  | cons t s ih =>
      intro c d hI h G
      rw [brun] at h
      rcases he : bstep K c t with _ | e
      · rw [he] at h
        exact absurd h (by simp)
      · rw [he] at h
        have hIe := binv_step he hI
        have ihh := ih e d hIe h G
        rw [genTags, he]
        dsimp only
        rw [List.count_append]
        have hstep : (tagAt c t).count G + stateTag c G = stateTag e G := by
          have hcnt : ∀ a : Nat, ([a] : List Nat).count G =
              if G = a then 1 else 0 := by
            intro a
            by_cases hh : G = a
            · rw [if_pos hh, hh]
              simp
            · rw [if_neg hh]
              simp [List.count_singleton']
              omega
          rcases bstep_eq_some he with ⟨k, ht, hk, ⟨hthr, hd⟩ | ⟨hthr, hd⟩⟩ |
            ⟨g, k, ht, hg, hd⟩
          · subst hd
            rw [tagAt, ht]
            dsimp only
            rw [hcnt, stateTag, stateTag]
            dsimp only
            rw [List.length_set]
            split_ifs <;> omega
          · subst hd
            rw [tagAt, ht]
            dsimp only
            rw [hcnt, stateTag, stateTag]
            dsimp only
            rw [List.length_set]
            split_ifs <;> omega
          · subst hd
            rw [tagAt, ht]
            dsimp only
            rw [stateTag, stateTag]
            dsimp only
            rw [List.length_set]
            simp
        omega

/-- Maximal schedules run the completion action exactly `K` times. -/
theorem bstuck_completions {K N : Nat} (hN : 1 ≤ N) (sched : List Nat)
    (c : BConf) (h : brun K (binit N) sched = some c) (hstuck : BStuck K c) :
    c.completions = K := by
  have hI : BInv K c := brun_preserve K (BInv K)
    (fun c2 t d hP hs => binv_step hs hP) sched (binit N) c h (binv_init N K hN)
  by_cases hw : ∃ t k, c.threads.get? t = some (BPhase.work k)
  · rcases hw with ⟨t, k, ht⟩
    have hkg : k = c.gen := binv_work_gen hI ht
    have hok := hI.2.2.2.2 _ (List.get?_mem ht)
    rw [phaseOk] at hok
    have hkK : ¬ k < K := by
      intro hlt
      have hs := hstuck t
      rw [bstep, ht] at hs
      dsimp only at hs
      rw [if_pos hlt] at hs
      by_cases hthr : c.arrived + 1 = c.threads.length
      · rw [if_pos hthr] at hs
        exact absurd hs (by simp)
      · rw [if_neg hthr] at hs
        exact absurd hs (by simp)
    have h1 := hI.1
    omega
  · push_neg at hw
    have hall : c.threads.countP (currentWaiter c.gen) = c.threads.length := by
      rw [List.countP_eq_length]
      intro p hp
      rcases List.mem_iff_get?.1 hp with ⟨t, ht⟩
      rcases p with k | ⟨g, k⟩
      · exact absurd ht (hw t k)
      · have hok := hI.2.2.2.2 _ hp
        rw [phaseOk] at hok
        have hng : ¬ g < c.gen := by
          intro hlt
          have hs := hstuck t
          rw [bstep, ht] at hs
          dsimp only at hs
          rw [if_pos hlt] at hs
          exact absurd hs (by simp)
        rw [show currentWaiter c.gen (BPhase.waiting g k) =
            decide (g = c.gen) from rfl]
        simp
        omega
    have h2 := hI.2.1
    have h3 := hI.2.2.1
    omega

/-- C2: for every ReusableBarrier with `N ≥ 1` participants cycling `K`
times, under every schedule: a waiter of generation `G` can only be
released once generation `G` has received all `N` arrivals and its
completion has already run (the threshold arrival performs completion,
reset and generation advance in one atomic step, before any release); and
every maximal schedule runs the completion action exactly `K` times, once
per generation. -/
theorem barrier_release_after_full_generation (N K : Nat) (hN : 1 ≤ N) :
    (∀ p c1 t G k, brun K (binit N) p = some c1 →
        c1.threads.get? t = some (BPhase.waiting G k) → G < c1.gen →
        (genTags K (binit N) p).count G = N ∧ G < c1.completions) ∧
    (∀ sched c, brun K (binit N) sched = some c → BStuck K c →
        c.completions = K) := by
  constructor
  · intro p c1 t G k hrun ht hG
    have hI0 := binv_init N K hN
    have hI1 : BInv K c1 := brun_preserve K (BInv K)
      (fun c2 u d hP hs => binv_step hs hP) p (binit N) c1 hrun hI0
    have hlen1 : c1.threads.length = N := by
      have hpres : ∀ (c2 : BConf) (u : Nat) (d : BConf),
          c2.threads.length = N → bstep K c2 u = some d →
          d.threads.length = N := by
        intro c2 u d hP hs
        rw [bstep_length hs]
        exact hP
      refine brun_preserve K (fun x => x.threads.length = N) hpres p
        (binit N) c1 hrun ?_
      rw [binit]
      dsimp only
      rw [List.length_replicate]
    have hcount := genTags_count K p (binit N) c1 hI0 hrun G
    have hsinit : stateTag (binit N) G = 0 := by
      rw [stateTag, show (binit N).gen = 0 from rfl,
          show (binit N).arrived = 0 from rfl]
      split_ifs <;> omega
    constructor
    · have hfin : (genTags K (binit N) p).count G = stateTag c1 G := by omega
      rw [hfin, stateTag, if_pos hG, hlen1]
    · have h1 := hI1.1
      omega
  · intro sched c h hstuck
    exact bstuck_completions hN sched c h hstuck

/-- Witness for C2: two participants, one cycle: the release of the
waiting thread happens after both tagged-0 arrivals and after the single
completion; the maximal schedule completes exactly once. -/
theorem barrier_release_witness :
    (brun 1 (binit 2) [0, 1] = some
      ⟨0, 1, 1, [BPhase.waiting 0 0, BPhase.work 1]⟩) ∧
    ((genTags 1 (binit 2) [0, 1]).count 0 = 2 ∧
      0 < (⟨0, 1, 1, [BPhase.waiting 0 0, BPhase.work 1]⟩ : BConf).completions) ∧
    (brun 1 (binit 2) [0, 1, 0] = some
      ⟨0, 1, 1, [BPhase.work 1, BPhase.work 1]⟩ ∧
      (⟨0, 1, 1, [BPhase.work 1, BPhase.work 1]⟩ : BConf).completions = 1) := by
  have hrun1 : brun 1 (binit 2) [0, 1] = some
      ⟨0, 1, 1, [BPhase.waiting 0 0, BPhase.work 1]⟩ := by decide
  have hrun2 : brun 1 (binit 2) [0, 1, 0] = some
      ⟨0, 1, 1, [BPhase.work 1, BPhase.work 1]⟩ := by decide
  have hthm := barrier_release_after_full_generation 2 1 (by decide)
  have hstuck : BStuck 1 (⟨0, 1, 1, [BPhase.work 1, BPhase.work 1]⟩ : BConf) := by
    intro t
    rcases t with _ | _ | t
    · decide
    · decide
    · apply bstep_none_of_get?_none
      rw [List.get?_eq_none]
      simp
  refine ⟨hrun1, hthm.1 [0, 1] _ 0 0 0 hrun1 (by decide) (by decide),
    hrun2, hthm.2 [0, 1, 0] _ hrun2 hstuck⟩

theorem bstep_get?_ne {K : Nat} {c : BConf} {u : Nat} {d : BConf}
    (h : bstep K c u = some d) {t : Nat} (hne : u ≠ t) :
    d.threads.get? t = c.threads.get? t := by
  rcases bstep_eq_some h with ⟨k, ht, hk, ⟨_, hd⟩ | ⟨_, hd⟩⟩ | ⟨g, k, ht, hg, hd⟩
  · subst hd
    dsimp only
    exact List.get?_set_ne _ _ hne
  · subst hd
    dsimp only
    exact List.get?_set_ne _ _ hne
  · subst hd
    dsimp only
    exact List.get?_set_ne _ _ hne

/-- Per-thread tag characterization: along any successful schedule, the
generation tags of one thread's arrivals are consecutive, one per
generation: its `j`-th arrival is tagged `j - 1`. -/
theorem tagsOfT_range (K : Nat) :
    ∀ (sched : List Nat) (c d : BConf), BInv K c → brun K c sched = some d →
      ∀ t0, aCntAt c t0 ≤ aCntAt d t0 ∧
        tagsOfT K t0 c sched =
          List.range' (aCntAt c t0) (aCntAt d t0 - aCntAt c t0) := by
  intro sched
  induction sched with
  | nil =>
      intro c d _ h t0
      rw [brun] at h
      cases h
      rw [tagsOfT]
      refine ⟨le_refl _, ?_⟩
      rw [Nat.sub_self]
      rfl
  | cons t s ih =>
      intro c d hI h t0
      rw [brun] at h
      rcases he : bstep K c t with _ | e
      · rw [he] at h
        exact absurd h (by simp)
      · rw [he] at h
        have hIe := binv_step he hI
        have ihh := ih e d hIe h t0
        rw [tagsOfT, he]
        dsimp only
        by_cases htt : t = t0
        · subst htt
          rw [if_pos rfl]
          rcases bstep_eq_some he with ⟨k, ht, hk, ⟨hthr, hd⟩ | ⟨hthr, hd⟩⟩ |
            ⟨g, k, ht, hg, hd⟩
          · have hkg : k = c.gen := binv_work_gen hI ht
            have hac : aCntAt c t = k := by
              rw [aCntAt, ht]
              rfl
            have hae : aCntAt e t = k + 1 := by
              rw [aCntAt, hd]
              dsimp only
              rw [List.get?_set_eq_of_lt _ (List.get?_eq_some.1 ht).1]
              rfl
            rw [tagAt, ht]
            dsimp only
            rw [hae] at ihh
            refine ⟨by omega, ?_⟩
            rw [hac, ihh.2, ← hkg]
            rw [show aCntAt d t - k = (aCntAt d t - (k + 1)) + 1 from by omega]
            rw [List.range'_succ]
            rfl
          · have hkg : k = c.gen := binv_work_gen hI ht
            have hac : aCntAt c t = k := by
              rw [aCntAt, ht]
              rfl
            have hae : aCntAt e t = k + 1 := by
              rw [aCntAt, hd]
              dsimp only
              rw [List.get?_set_eq_of_lt _ (List.get?_eq_some.1 ht).1]
              rfl
            rw [tagAt, ht]
            dsimp only
            rw [hae] at ihh
            refine ⟨by omega, ?_⟩
            rw [hac, ihh.2, ← hkg]
            rw [show aCntAt d t - k = (aCntAt d t - (k + 1)) + 1 from by omega]
            rw [List.range'_succ]
            rfl
          · have hac : aCntAt c t = k + 1 := by
              rw [aCntAt, ht]
              rfl
            have hae : aCntAt e t = k + 1 := by
              rw [aCntAt, hd]
              dsimp only
              rw [List.get?_set_eq_of_lt _ (List.get?_eq_some.1 ht).1]
              rfl
            rw [tagAt, ht]
            dsimp only
            rw [hae] at ihh
            rw [hac]
            exact ⟨ihh.1, by rw [List.nil_append, ihh.2]⟩
        · rw [if_neg htt]
          have hsame : aCntAt e t0 = aCntAt c t0 := by
            rw [aCntAt, aCntAt, bstep_get?_ne he htt]
          rw [hsame] at ihh
          rw [List.nil_append]
          exact ihh

/-- C3: generation isolation of the ReusableBarrier: under every schedule
each thread's arrival tags are exactly `0, 1, ..., a-1` (one arrival per
generation, so an arrival for generation `G+1` is distinct from, and never
counted into, generation `G`); a waiter's tag equals its cycle index; and
a waiter tagged `g` is released only once the generation has advanced past
`g`. -/
theorem barrier_generation_isolation (N K : Nat) (hN : 1 ≤ N) :
    (∀ sched c t, brun K (binit N) sched = some c →
        tagsOfT K t (binit N) sched = List.range (aCntAt c t)) ∧
    (∀ sched c t g k, brun K (binit N) sched = some c →
        c.threads.get? t = some (BPhase.waiting g k) →
        g = k ∧ ∀ d, bstep K c t = some d → g < c.gen) := by
  constructor
  · intro sched c t hrun
    have h0 : aCntAt (binit N) t = 0 := by
      rcases hh : (binit N).threads.get? t with _ | p
      · rw [aCntAt, hh]
      · rw [aCntAt, hh]
        rw [List.eq_of_mem_replicate (List.get?_mem hh)]
        rfl
    have hr := tagsOfT_range K sched (binit N) c (binv_init N K hN) hrun t
    rw [h0, Nat.sub_zero] at hr
    rw [hr.2, List.range_eq_range']
  · intro sched c t g k hrun ht
    have hI : BInv K c := brun_preserve K (BInv K)
      (fun c2 u d hP hs => binv_step hs hP) sched (binit N) c hrun
      (binv_init N K hN)
    have hok := hI.2.2.2.2 _ (List.get?_mem ht)
    rw [phaseOk] at hok
    refine ⟨hok.1, ?_⟩
    intro d hd
    rcases bstep_eq_some hd with ⟨k2, ht2, _, _⟩ | ⟨g2, k2, ht2, hg2, _⟩
    · rw [ht] at ht2
      exact absurd (Option.some_inj.1 ht2) (by simp)
    · rw [ht] at ht2
      have := Option.some_inj.1 ht2
      rw [BPhase.waiting.injEq] at this
      rw [this.1]
      exact hg2

/-- Witness for C3: with two participants and one cycle, thread 0's single
arrival is tagged with generation 0. -/
theorem barrier_generation_isolation_witness :
    (brun 1 (binit 2) [0, 1] = some
      ⟨0, 1, 1, [BPhase.waiting 0 0, BPhase.work 1]⟩) ∧
    tagsOfT 1 0 (binit 2) [0, 1] =
      List.range (aCntAt ⟨0, 1, 1, [BPhase.waiting 0 0, BPhase.work 1]⟩ 0) := by
  have hrun : brun 1 (binit 2) [0, 1] = some
      ⟨0, 1, 1, [BPhase.waiting 0 0, BPhase.work 1]⟩ := by decide
  exact ⟨hrun, (barrier_generation_isolation 2 1 (by decide)).1 [0, 1] _ 0 hrun⟩
